import Mathlib

/-
Shallow embedding of akr::IntrusiveList (src/intrusivelist.hh).

Elements are identified by natural-number ids.  The heap maps each id to the
link record embedded in the element: the `prev` and `next` iterator handles
(`ForwardNodeIterator`, a possibly-null pointer, modelled as `Option Nat`)
together with the element's comparison value (`val`, standing for the data an
element type carries and compares by).

A list object (`IntrusiveList<T, true>`) is a pair of head/last handles plus
the tracked length (`RecordLength<true>`), modelled by `LState`.

Dereferencing a null iterator is undefined behaviour in the source; operations
that would dereference null return `none`.
-/

namespace IntrusiveList

structure Node where
  prev : Option Nat
  next : Option Nat
  val  : Int
deriving DecidableEq

def Heap : Type := Nat → Node

def setPrev (h : Heap) (i : Nat) (p : Option Nat) : Heap :=
  fun j => if j = i then { h i with prev := p } else h j

def setNext (h : Heap) (i : Nat) (n : Option Nat) : Heap :=
  fun j => if j = i then { h i with next := n } else h j

/-- IntrusiveNode::Detach: `if (prev) prev->next = next; if (next) next->prev = prev;
prev = nullptr; next = nullptr;` translated statement by statement. -/
def detach (h : Heap) (self : Nat) : Heap :=
  let h1 := match (h self).prev with
            | some p => setNext h p ((h self).next)
            | none => h
  let h2 := match (h1 self).next with
            | some n => setPrev h1 n ((h1 self).prev)
            | none => h1
  setNext (setPrev h2 self none) self none

/-- IntrusiveNode::AttachPrev: `prev = node->prev; next = node;
if (node->prev) node->prev->next = this; node->prev = this;`. -/
def attachPrev (h : Heap) (self node : Nat) : Heap :=
  let h1 := setPrev h self ((h node).prev)
  let h2 := setNext h1 self (some node)
  let h3 := match (h2 node).prev with
            | some p => setNext h2 p (some self)
            | none => h2
  setPrev h3 node (some self)

/-- IntrusiveNode::AttachNext: `prev = node; next = node->next;
if (node->next) node->next->prev = this; node->next = this;`. -/
def attachNext (h : Heap) (self node : Nat) : Heap :=
  let h1 := setPrev h self (some node)
  let h2 := setNext h1 self ((h1 node).next)
  let h3 := match (h2 node).next with
            | some n => setPrev h2 n (some self)
            | none => h2
  setNext h3 node (some self)

/-- The list object: head and last handles plus the tracked length
(`RecordLength<true>`). -/
structure LState where
  head : Option Nat
  last : Option Nat
  length : Nat
deriving DecidableEq

def getLength (s : LState) : Nat := s.length

/-- IntrusiveList::IsEmpty: `!head && !last`. -/
def isEmpty (s : LState) : Bool := s.head.isNone && s.last.isNone

/-- IntrusiveList::Clear: `last = head = nullptr; SetToZero();` — no heap writes. -/
def clear (h : Heap) (s : LState) : Heap × LState :=
  (h, { head := none, last := none, length := 0 })

/-- IntrusiveList::InsertPrev(curNode, newNode).  Returns the updated heap, the
updated list object, and the returned iterator (`return newNode`).  Dereferencing
a null `newNode` (or a null `curNode` on a non-empty list) is UB: `none`. -/
def insertPrev (h : Heap) (s : LState) (curNode newNode : Option Nat) :
    Option (Heap × LState × Nat) :=
  match newNode with
  | none => none
  | some nw =>
    let h1 := detach h nw
    if isEmpty s then
      some (h1, { head := some nw, last := some nw, length := s.length + 1 }, nw)
    else
      match curNode with
      | none => none
      | some c =>
        let h2 := attachPrev h1 nw c
        let hd := if s.head = some c then some nw else s.head
        some (h2, { head := hd, last := s.last, length := s.length + 1 }, nw)

/-- IntrusiveList::InsertNext(curNode, newNode). -/
def insertNext (h : Heap) (s : LState) (curNode newNode : Option Nat) :
    Option (Heap × LState × Nat) :=
  match newNode with
  | none => none
  | some nw =>
    let h1 := detach h nw
    if isEmpty s then
      some (h1, { head := some nw, last := some nw, length := s.length + 1 }, nw)
    else
      match curNode with
      | none => none
      | some c =>
        let h2 := attachNext h1 nw c
        let la := if s.last = some c then some nw else s.last
        some (h2, { head := s.head, last := la, length := s.length + 1 }, nw)

/-- IntrusiveList::InsertHead: `InsertPrev(head, newNode)`. -/
def insertHead (h : Heap) (s : LState) (newNode : Option Nat) :
    Option (Heap × LState × Nat) :=
  insertPrev h s s.head newNode

/-- IntrusiveList::InsertLast: `InsertNext(last, newNode)`. -/
def insertLast (h : Heap) (s : LState) (newNode : Option Nat) :
    Option (Heap × LState × Nat) :=
  insertNext h s s.last newNode

/-- IntrusiveList::Remove(curNode): `if (curNode == head) ++head;
if (curNode == last) --last; curNode->Detach(); DecLength();`. -/
def remove (h : Heap) (s : LState) (curNode : Option Nat) :
    Option (Heap × LState) :=
  match curNode with
  | none => none
  | some c =>
    let hd := if s.head = some c then (h c).next else s.head
    let la := if s.last = some c then (h c).prev else s.last
    some (detach h c, { head := hd, last := la, length := s.length - 1 })

def removeHead (h : Heap) (s : LState) : Option (Heap × LState) :=
  remove h s s.head

def removeLast (h : Heap) (s : LState) : Option (Heap × LState) :=
  remove h s s.last

/-- Cross-list IntrusiveList::InsertPrev(curNode, newNode, other):
`other.Remove(newNode); return InsertPrev(curNode, newNode);`.
Returns (heap, this, other, returned iterator). -/
def insertPrevFrom (h : Heap) (s other : LState) (curNode newNode : Option Nat) :
    Option (Heap × LState × LState × Nat) :=
  match remove h other newNode with
  | none => none
  | some (h1, other1) =>
    match insertPrev h1 s curNode newNode with
    | none => none
    | some (h2, s1, r) => some (h2, s1, other1, r)

/-- Cross-list IntrusiveList::InsertNext(curNode, newNode, other). -/
def insertNextFrom (h : Heap) (s other : LState) (curNode newNode : Option Nat) :
    Option (Heap × LState × LState × Nat) :=
  match remove h other newNode with
  | none => none
  | some (h1, other1) =>
    match insertNext h1 s curNode newNode with
    | none => none
    | some (h2, s1, r) => some (h2, s1, other1, r)

/-- Cross-list IntrusiveList::InsertHead(newNode, other). -/
def insertHeadFrom (h : Heap) (s other : LState) (newNode : Option Nat) :
    Option (Heap × LState × LState × Nat) :=
  match remove h other newNode with
  | none => none
  | some (h1, other1) =>
    match insertHead h1 s newNode with
    | none => none
    | some (h2, s1, r) => some (h2, s1, other1, r)

/-- Cross-list IntrusiveList::InsertLast(newNode, other). -/
def insertLastFrom (h : Heap) (s other : LState) (newNode : Option Nat) :
    Option (Heap × LState × LState × Nat) :=
  match remove h other newNode with
  | none => none
  | some (h1, other1) =>
    match insertLast h1 s newNode with
    | none => none
    | some (h2, s1, r) => some (h2, s1, other1, r)

/-- Move construction: the new list copies head/last/length, then
`other.Clear()`.  Returns (heap, constructed list, moved-from list). -/
def moveConstruct (h : Heap) (other : LState) : Heap × LState × LState :=
  (h, { head := other.head, last := other.last, length := other.length },
      { head := none, last := none, length := 0 })

/-- Move assignment (non-self case): same transfer as move construction. -/
def moveAssign (h : Heap) (s other : LState) : Heap × LState × LState :=
  (h, { head := other.head, last := other.last, length := other.length },
      { head := none, last := none, length := 0 })

/-- Loop of the heterogeneous move-constructor
`for (auto&& e : other) { InsertLast(e, other); }`: the iterator is advanced
AFTER the body, reading `e`'s `next` handle from the post-splice heap.
Fuel bounds the iteration count; exhaustion yields `none`. -/
def heteroLoop (fuel : Nat) (h : Heap) (tgt src : LState) (it : Option Nat) :
    Option (Heap × LState × LState) :=
  match it with
  | none => some (h, tgt, src)
  | some e =>
    match fuel with
    | 0 => none
    | fuel' + 1 =>
      match insertLastFrom h tgt src (some e) with
      | none => none
      | some (h1, tgt1, src1, _) => heteroLoop fuel' h1 tgt1 src1 ((h1 e).next)

/-- Heterogeneous move-construction `IntrusiveList(IntrusiveList<U, E>&& other)`:
members default-initialised (empty list), then the range-for splice loop. -/
def heteroMoveConstruct (fuel : Nat) (h : Heap) (src : LState) :
    Option (Heap × LState × LState) :=
  heteroLoop fuel h { head := none, last := none, length := 0 } src src.head

/-- Loop of operator+= / operator+:
`for (iter = rhs.begin(), prev; iter != rhs.end();) { prev = iter++;
InsertLast(prev, rhs); }` — here the iterator is advanced BEFORE the splice,
reading `e`'s `next` from the pre-splice heap. -/
def drainLoop (fuel : Nat) (h : Heap) (tgt src : LState) (it : Option Nat) :
    Option (Heap × LState × LState) :=
  match it with
  | none => some (h, tgt, src)
  | some e =>
    match fuel with
    | 0 => none
    | fuel' + 1 =>
      let it' := (h e).next
      match insertLastFrom h tgt src (some e) with
      | none => none
      | some (h1, tgt1, src1, _) => drainLoop fuel' h1 tgt1 src1 it'

/-- operator+=(rhs): drain rhs into this, front to back. -/
def plusAssign (fuel : Nat) (h : Heap) (s rhs : LState) :
    Option (Heap × LState × LState) :=
  drainLoop fuel h s rhs rhs.head

/-- operator+(lhs, rhs): a fresh list absorbs lhs front to back, then rhs.
Returns (heap, result, drained lhs, drained rhs). -/
def plusOp (fuel : Nat) (h : Heap) (lhs rhs : LState) :
    Option (Heap × LState × LState × LState) :=
  match drainLoop fuel h { head := none, last := none, length := 0 } lhs lhs.head with
  | none => none
  | some (h1, tmp1, lhs1) =>
    match drainLoop fuel h1 tmp1 rhs rhs.head with
    | none => none
    | some (h2, tmp2, rhs1) => some (h2, tmp2, lhs1, rhs1)

/-- Length tracking of the operator+ result: the return type is
`IntrusiveList<common_type_t<T,U>, Enable || Enable_>`. -/
def plusHasLength (e1 e2 : Bool) : Bool := e1 || e2

/-- std::equal(lhs.begin(), lhs.end(), rhs.begin(), rhs.end()) over element
values: walk both forward ranges; equal iff both end together with all element
values equal. -/
def eqLoop (h : Heap) : Nat → Option Nat → Option Nat → Bool
  | _, none, none => true
  | _, none, some _ => false
  | _, some _, none => false
  | 0, some _, some _ => false
  | f + 1, some a, some b =>
    ((h a).val == (h b).val) && eqLoop h f ((h a).next) ((h b).next)

/-- operator==(lhs, rhs). -/
def listEqual (fuel : Nat) (h : Heap) (s1 s2 : LState) : Bool :=
  eqLoop h fuel s1.head s2.head

/-- std::lexicographical_compare_three_way over both forward ranges. -/
def cmpLoop (h : Heap) : Nat → Option Nat → Option Nat → Ordering
  | _, none, none => Ordering.eq
  | _, none, some _ => Ordering.lt
  | _, some _, none => Ordering.gt
  | 0, some _, some _ => Ordering.eq
  | f + 1, some a, some b =>
    match compare (h a).val (h b).val with
    | Ordering.eq => cmpLoop h f ((h a).next) ((h b).next)
    | o => o

/-- operator<=>(lhs, rhs). -/
def listCompare (fuel : Nat) (h : Heap) (s1 s2 : LState) : Ordering :=
  cmpLoop h fuel s1.head s2.head

/-- Modelled from the spec: the standard lexicographic rule on value sequences
("lists of different lengths compare by the first point of difference, with a
shorter prefix-equal list ordering before a longer one"). -/
def lexRule : List Int → List Int → Ordering
  | [], [] => Ordering.eq
  | [], _ :: _ => Ordering.lt
  | _ :: _, [] => Ordering.gt
  | a :: as, b :: bs =>
    match compare a b with
    | Ordering.eq => lexRule as bs
    | o => o

/-- Forward traversal: begin() = head, ++ follows `next`, stops at null. -/
def traverseF (h : Heap) : Nat → Option Nat → List Nat
  | 0, _ => []
  | _, none => []
  | f + 1, some c => c :: traverseF h f ((h c).next)

/-- Reverse traversal: rbegin() = last, ++ follows `prev`, stops at null. -/
def traverseR (h : Heap) : Nat → Option Nat → List Nat
  | 0, _ => []
  | _, none => []
  | f + 1, some c => c :: traverseR h f ((h c).prev)

/-- Head of a list, or the given boundary handle when empty. -/
def headOr (xs : List Nat) (d : Option Nat) : Option Nat :=
  match xs with
  | [] => d
  | x :: _ => some x

/-- Last element of a list, or the given boundary handle when empty. -/
def lastOr (xs : List Nat) (d : Option Nat) : Option Nat :=
  match xs.getLast? with
  | some l => some l
  | none => d

/-- chainB h pr xs nx: the ids xs form a doubly-linked chain in h, the first
element's prev handle being pr and the last element's next handle being nx. -/
def chainB (h : Heap) : Option Nat → List Nat → Option Nat → Bool
  | _, [], _ => true
  | pr, x :: xs, nx =>
    ((h x).prev == pr) && ((h x).next == headOr xs nx) && chainB h (some x) xs nx

/-- The list object s represents exactly the element sequence xs in heap h. -/
def listRep (h : Heap) (s : LState) (xs : List Nat) : Prop :=
  s.head = headOr xs none ∧ s.last = lastOr xs none ∧
  chainB h none xs none = true ∧ s.length = xs.length ∧ xs.Nodup

/-- The list invariant: the object represents some element sequence. -/
def Inv (h : Heap) (s : LState) : Prop :=
  ∃ xs, listRep h s xs

/-- Repeated InsertLast of the given (fresh, detached) elements. -/
def insertLastAll (h : Heap) (s : LState) : List Nat → Option (Heap × LState)
  | [] => some (h, s)
  | x :: xs =>
    match insertLast h s (some x) with
    | none => none
    | some (h1, s1, _) => insertLastAll h1 s1 xs

/-- Concrete two-element fixture: list [0, 1]. -/
def hPair : Heap :=
  fun i => if i = 0 then ⟨none, some 1, 10⟩
           else if i = 1 then ⟨some 0, none, 20⟩
           else ⟨none, none, 0⟩

def sPair : LState := { head := some 0, last := some 1, length := 2 }

def sNil : LState := { head := none, last := none, length := 0 }

/-- Concrete heap of fully detached nodes, node i carrying value i. -/
def hDetached : Heap := fun i => ⟨none, none, (i : Int)⟩

/-- Concrete heap for the two-element list [2, 0]. -/
def hM2 : Heap :=
  fun i => if i = 2 then ⟨none, some 0, 30⟩
           else if i = 0 then ⟨some 2, none, 10⟩
           else ⟨none, none, 0⟩

def mM2 : LState := { head := some 2, last := some 0, length := 2 }

@[simp]
theorem setPrev_prev (h : Heap) (i : Nat) (p : Option Nat) (j : Nat) :
    ((setPrev h i p) j).prev = if j = i then p else (h j).prev := by
  by_cases hj : j = i <;> simp [setPrev, hj]

@[simp]
theorem setPrev_next (h : Heap) (i : Nat) (p : Option Nat) (j : Nat) :
    ((setPrev h i p) j).next = (h j).next := by
  by_cases hj : j = i <;> simp [setPrev, hj]

@[simp]
theorem setPrev_val (h : Heap) (i : Nat) (p : Option Nat) (j : Nat) :
    ((setPrev h i p) j).val = (h j).val := by
  by_cases hj : j = i <;> simp [setPrev, hj]

@[simp]
theorem setNext_next (h : Heap) (i : Nat) (n : Option Nat) (j : Nat) :
    ((setNext h i n) j).next = if j = i then n else (h j).next := by
  by_cases hj : j = i <;> simp [setNext, hj]

@[simp]
theorem setNext_prev (h : Heap) (i : Nat) (n : Option Nat) (j : Nat) :
    ((setNext h i n) j).prev = (h j).prev := by
  by_cases hj : j = i <;> simp [setNext, hj]

@[simp]
theorem setNext_val (h : Heap) (i : Nat) (n : Option Nat) (j : Nat) :
    ((setNext h i n) j).val = (h j).val := by
  by_cases hj : j = i <;> simp [setNext, hj]

theorem detach_prev_self (h : Heap) (c : Nat) : ((detach h c) c).prev = none := by
  unfold detach
  simp

theorem detach_next_self (h : Heap) (c : Nat) : ((detach h c) c).next = none := by
  unfold detach
  simp

theorem detach_val (h : Heap) (c j : Nat) : ((detach h c) j).val = (h j).val := by
  unfold detach
  cases hp : (h c).prev <;> cases hn : (h c).next <;> simp [hp, hn]

theorem detach_prev_other (h : Heap) (c j : Nat) (hjc : j ≠ c)
    (hn : (h c).next ≠ some j) : ((detach h c) j).prev = (h j).prev := by
  unfold detach
  cases hp : (h c).prev <;> cases hn' : (h c).next <;>
    simp [hp, hn', hjc]
  case none.some n =>
    have : j ≠ n := fun e => hn (by rw [hn', e])
    simp [this]
  case some.some p n =>
    have : j ≠ n := fun e => hn (by rw [hn', e])
    simp [this]

theorem detach_prev_nextnode (h : Heap) (c n : Nat) (hn : (h c).next = some n)
    (hnc : n ≠ c) : ((detach h c) n).prev = (h c).prev := by
  unfold detach
  cases hp : (h c).prev <;> simp [hp, hn, hnc]

theorem detach_next_other (h : Heap) (c j : Nat) (hjc : j ≠ c)
    (hp : (h c).prev ≠ some j) : ((detach h c) j).next = (h j).next := by
  unfold detach
  cases hp' : (h c).prev <;> cases hn' : (h c).next <;>
    simp [hp', hn', hjc]
  case some.none p =>
    have : j ≠ p := fun e => hp (by rw [hp', e])
    simp [this]
  case some.some p n =>
    have : j ≠ p := fun e => hp (by rw [hp', e])
    simp [this]

theorem detach_next_prevnode (h : Heap) (c p : Nat) (hp : (h c).prev = some p)
    (hpc : p ≠ c) : ((detach h c) p).next = (h c).next := by
  unfold detach
  cases hn : (h c).next <;> simp [hp, hn, hpc]

theorem node_eq (a b : Node) (h1 : a.prev = b.prev) (h2 : a.next = b.next)
    (h3 : a.val = b.val) : a = b := by
  cases a
  cases b
  simp_all

theorem detach_noop (h : Heap) (c : Nat) (hp : (h c).prev = none)
    (hn : (h c).next = none) : detach h c = h := by
  funext j
  by_cases hj : j = c
  · subst hj
    exact node_eq _ _ (by rw [detach_prev_self, hp]) (by rw [detach_next_self, hn])
      (detach_val h j j)
  · exact node_eq _ _ (detach_prev_other h c j hj (by simp [hn]))
      (detach_next_other h c j hj (by simp [hp])) (detach_val h c j)

theorem attachPrev_prev_self (h : Heap) (w c : Nat) (hwc : w ≠ c) :
    ((attachPrev h w c) w).prev = (h c).prev := by
  unfold attachPrev
  cases hp : (h c).prev <;> simp [hp, hwc]

theorem attachPrev_next_self (h : Heap) (w c : Nat) (hwc : w ≠ c)
    (hp : (h c).prev ≠ some w) : ((attachPrev h w c) w).next = some c := by
  unfold attachPrev
  cases hp' : (h c).prev with
  | none => simp [hp', hwc]
  | some p =>
    have hpw : w ≠ p := fun e => hp (by rw [hp', e])
    simp [hp', hwc, hpw]

theorem attachPrev_prev_node (h : Heap) (w c : Nat) :
    ((attachPrev h w c) c).prev = some w := by
  unfold attachPrev
  cases hp : (h c).prev <;> simp [hp]

theorem attachPrev_next_node (h : Heap) (w c : Nat) (hcw : c ≠ w)
    (hp : (h c).prev ≠ some c) : ((attachPrev h w c) c).next = (h c).next := by
  unfold attachPrev
  cases hp' : (h c).prev with
  | none => simp [hp', hcw]
  | some p =>
    have hpc : c ≠ p := fun e => hp (by rw [hp', e])
    simp [hp', hcw, hpc]

theorem attachPrev_next_prevnode (h : Heap) (w c p : Nat)
    (hp : (h c).prev = some p) : ((attachPrev h w c) p).next = some w := by
  unfold attachPrev
  simp [hp]

theorem attachPrev_prev_other (h : Heap) (w c j : Nat) (hjw : j ≠ w)
    (hjc : j ≠ c) : ((attachPrev h w c) j).prev = (h j).prev := by
  unfold attachPrev
  cases hp : (h c).prev <;> simp [hp, hjw, hjc]

theorem attachPrev_next_other (h : Heap) (w c j : Nat) (hjw : j ≠ w)
    (hjc : j ≠ c) (hp : (h c).prev ≠ some j) :
    ((attachPrev h w c) j).next = (h j).next := by
  unfold attachPrev
  cases hp' : (h c).prev with
  | none => simp [hp', hjw, hjc]
  | some p =>
    have hjp : j ≠ p := fun e => hp (by rw [hp', e])
    simp [hp', hjw, hjc, hjp]

theorem attachPrev_val (h : Heap) (w c j : Nat) :
    ((attachPrev h w c) j).val = (h j).val := by
  unfold attachPrev
  cases hp : (h c).prev <;> simp [hp]

theorem attachNext_next_self (h : Heap) (w c : Nat) (hwc : w ≠ c) :
    ((attachNext h w c) w).next = (h c).next := by
  unfold attachNext
  cases hn : (h c).next <;> simp [hn, hwc]

theorem attachNext_prev_self (h : Heap) (w c : Nat) (hwc : w ≠ c)
    (hn : (h c).next ≠ some w) : ((attachNext h w c) w).prev = some c := by
  unfold attachNext
  cases hn' : (h c).next with
  | none => simp [hn', hwc]
  | some n =>
    have hnw : w ≠ n := fun e => hn (by rw [hn', e])
    simp [hn', hwc, hnw]

theorem attachNext_next_node (h : Heap) (w c : Nat) :
    ((attachNext h w c) c).next = some w := by
  unfold attachNext
  cases hn : (h c).next <;> simp [hn]

theorem attachNext_prev_node (h : Heap) (w c : Nat) (hcw : c ≠ w)
    (hn : (h c).next ≠ some c) : ((attachNext h w c) c).prev = (h c).prev := by
  unfold attachNext
  cases hn' : (h c).next with
  | none => simp [hn', hcw]
  | some n =>
    have hnc : c ≠ n := fun e => hn (by rw [hn', e])
    simp [hn', hcw, hnc]

theorem attachNext_prev_nextnode (h : Heap) (w c n : Nat)
    (hn : (h c).next = some n) : ((attachNext h w c) n).prev = some w := by
  unfold attachNext
  simp [hn]

theorem attachNext_prev_other (h : Heap) (w c j : Nat) (hjw : j ≠ w)
    (hjc : j ≠ c) (hn : (h c).next ≠ some j) :
    ((attachNext h w c) j).prev = (h j).prev := by
  unfold attachNext
  cases hn' : (h c).next with
  | none => simp [hn', hjw, hjc]
  | some n =>
    have hjn : j ≠ n := fun e => hn (by rw [hn', e])
    simp [hn', hjw, hjc, hjn]

theorem attachNext_next_other (h : Heap) (w c j : Nat) (hjw : j ≠ w)
    (hjc : j ≠ c) : ((attachNext h w c) j).next = (h j).next := by
  unfold attachNext
  cases hn : (h c).next <;> simp [hn, hjw, hjc]

theorem attachNext_val (h : Heap) (w c j : Nat) :
    ((attachNext h w c) j).val = (h j).val := by
  unfold attachNext
  cases hn : (h c).next <;> simp [hn]

@[simp]
theorem headOr_nil (d : Option Nat) : headOr [] d = d := rfl

@[simp]
theorem headOr_cons (x : Nat) (xs : List Nat) (d : Option Nat) :
    headOr (x :: xs) d = some x := rfl

theorem headOr_append (as bs : List Nat) (d : Option Nat) :
    headOr (as ++ bs) d = headOr as (headOr bs d) := by
  cases as <;> simp [headOr]

theorem headOr_mem (xs : List Nat) (d : Option Nat) (y : Nat)
    (e : headOr xs d = some y) : y ∈ xs ∨ d = some y := by
  cases xs with
  | nil => right; exact e
  | cons x xs => left; simp [headOr] at e; simp [e]

@[simp]
theorem lastOr_nil (d : Option Nat) : lastOr [] d = d := rfl

theorem lastOr_cons (a : Nat) (as : List Nat) (d : Option Nat) :
    lastOr (a :: as) d = lastOr as (some a) := by
  cases as with
  | nil => simp [lastOr]
  | cons b bs =>
    cases hg : (b :: bs).getLast? with
    | none => simp [List.getLast?_eq_none_iff] at hg
    | some l => simp [lastOr, List.getLast?_cons_cons, hg]

theorem lastOr_append (as bs : List Nat) (d : Option Nat) :
    lastOr (as ++ bs) d = lastOr bs (lastOr as d) := by
  induction as generalizing d with
  | nil => simp
  | cons a as ih => rw [List.cons_append, lastOr_cons, lastOr_cons, ih]

theorem lastOr_mem (xs : List Nat) (d : Option Nat) (y : Nat)
    (e : lastOr xs d = some y) : y ∈ xs ∨ d = some y := by
  unfold lastOr at e
  cases hL : xs.getLast? with
  | none => rw [hL] at e; right; exact e
  | some l =>
    rw [hL] at e
    have hly : l = y := by injection e
    subst hly
    obtain ⟨hne, hy⟩ := List.mem_getLast?_eq_getLast (l := xs) (by rw [hL]; rfl)
    left
    rw [hy]
    exact List.getLast_mem hne

theorem lastOr_mem_of_ne_nil (xs : List Nat) (d : Option Nat) (y : Nat)
    (hne : xs ≠ []) (e : lastOr xs d = some y) : y ∈ xs := by
  unfold lastOr at e
  cases hL : xs.getLast? with
  | none => exact absurd (List.getLast?_eq_none_iff.mp hL) hne
  | some l =>
    rw [hL] at e
    have hly : l = y := by injection e
    subst hly
    obtain ⟨hne', hy⟩ := List.mem_getLast?_eq_getLast (l := xs) (by rw [hL]; rfl)
    rw [hy]
    exact List.getLast_mem hne'

@[simp]
theorem chainB_nil (h : Heap) (pr nx : Option Nat) : chainB h pr [] nx = true := rfl

theorem chainB_cons (h : Heap) (pr : Option Nat) (x : Nat) (xs : List Nat)
    (nx : Option Nat) :
    (chainB h pr (x :: xs) nx = true) ↔
      ((h x).prev = pr ∧ (h x).next = headOr xs nx ∧ chainB h (some x) xs nx = true) := by
  simp [chainB, and_assoc]

theorem chainB_append (h : Heap) (as bs : List Nat) (pr nx : Option Nat) :
    (chainB h pr (as ++ bs) nx = true) ↔
      (chainB h pr as (headOr bs nx) = true ∧ chainB h (lastOr as pr) bs nx = true) := by
  induction as generalizing pr with
  | nil => simp
  | cons a as ih =>
    rw [List.cons_append, chainB_cons, chainB_cons, lastOr_cons, ih,
      headOr_append]
    tauto

theorem chainB_ext (h h' : Heap) (xs : List Nat) (pr nx : Option Nat)
    (he : ∀ x ∈ xs, (h' x).prev = (h x).prev ∧ (h' x).next = (h x).next) :
    chainB h' pr xs nx = chainB h pr xs nx := by
  induction xs generalizing pr with
  | nil => rfl
  | cons x xs ih =>
    have hx := he x (by simp)
    unfold chainB
    rw [hx.1, hx.2, ih (some x) (fun y hy => he y (List.mem_cons_of_mem x hy))]

theorem chain_boundary (h : Heap) (as bs : List Nat) (c : Nat) (pr nx : Option Nat)
    (hc : chainB h pr (as ++ c :: bs) nx = true) :
    (h c).prev = lastOr as pr ∧ (h c).next = headOr bs nx := by
  rw [chainB_append] at hc
  have := (chainB_cons h (lastOr as pr) c bs nx).mp hc.2
  exact ⟨this.1, this.2.1⟩

theorem detach_chain (c : Nat) (bs : List Nat) :
    ∀ (as : List Nat) (pr : Option Nat) (h : Heap),
      (as ++ c :: bs).Nodup →
      (∀ q, pr = some q → q ∉ as ++ c :: bs) →
      chainB h pr (as ++ c :: bs) none = true →
      chainB (detach h c) pr (as ++ bs) none = true := by
  intro as
  induction as with
  | nil =>
    intro pr h hnd hq hch
    rw [List.nil_append] at hch hnd hq ⊢
    rw [chainB_cons] at hch
    obtain ⟨hcp, hcn, hcrest⟩ := hch
    cases bs with
    | nil => simp
    | cons n bs' =>
      have hnodc := List.nodup_cons.mp hnd
      have hcn' : (h c).next = some n := by simpa using hcn
      have hnc : n ≠ c := by
        intro e
        exact hnodc.1 (by simp [← e])
      have hcbs' : c ∉ bs' := fun hm => hnodc.1 (by simp [hm])
      have hnbs' : n ∉ bs' := (List.nodup_cons.mp hnodc.2).1
      rw [chainB_cons] at hcrest ⊢
      obtain ⟨hnp, hnn, hrest⟩ := hcrest
      refine ⟨?_, ?_, ?_⟩
      · rw [detach_prev_nextnode h c n hcn' hnc, hcp]
      · have hpna : (h c).prev ≠ some n := by
          rw [hcp]
          intro e
          exact hq n e (by simp)
        rw [detach_next_other h c n hnc hpna]
        exact hnn
      · rw [chainB_ext h (detach h c) bs' (some n) none]
        · exact hrest
        · intro x hx
          have hxc : x ≠ c := fun e => hcbs' (e ▸ hx)
          have hxn1 : (h c).next ≠ some x := by
            rw [hcn']
            intro e
            have : n = x := by injection e
            exact hnbs' (this ▸ hx)
          have hxp1 : (h c).prev ≠ some x := by
            rw [hcp]
            intro e
            exact hq x e (by simp [hx])
          exact ⟨detach_prev_other h c x hxc hxn1, detach_next_other h c x hxc hxp1⟩
  | cons a as ih =>
    intro pr h hnd hq hch
    rw [List.cons_append] at hch hnd ⊢
    rw [chainB_cons] at hch ⊢
    obtain ⟨hap, han, hrest⟩ := hch
    have hna : a ∉ as ++ c :: bs := (List.nodup_cons.mp hnd).1
    have hnd' : (as ++ c :: bs).Nodup := (List.nodup_cons.mp hnd).2
    have hq' : ∀ q, (some a : Option Nat) = some q → q ∉ as ++ c :: bs := by
      intro q e
      have : a = q := by injection e
      exact this ▸ hna
    have hih := ih (some a) h hnd' hq' hrest
    have hac : a ≠ c := fun e => hna (by simp [e])
    have hbd := chain_boundary h as bs c (some a) none hrest
    refine ⟨?_, ?_, hih⟩
    · have hcna : (h c).next ≠ some a := by
        rw [hbd.2]
        intro e
        rcases headOr_mem bs none a e with hm | hm
        · exact hna (by simp [hm])
        · exact Option.noConfusion hm
      rw [detach_prev_other h c a hac hcna]
      exact hap
    · cases as with
      | nil =>
        have hcpa : (h c).prev = some a := by simpa using hbd.1
        rw [detach_next_prevnode h c a hcpa hac, hbd.2]
        simp
      | cons a' as'' =>
        have hcpna : (h c).prev ≠ some a := by
          rw [hbd.1]
          intro e
          have hm := lastOr_mem_of_ne_nil (a' :: as'') (some a) a (by simp) e
          refine hna ?_
          simp at hm ⊢
          tauto
        rw [detach_next_other h c a hac hcpna]
        rw [han]
        simp

theorem attachNext_chain (c w : Nat) (bs : List Nat) :
    ∀ (as : List Nat) (pr : Option Nat) (h : Heap),
      (as ++ c :: bs).Nodup →
      w ∉ as ++ c :: bs →
      chainB h pr (as ++ c :: bs) none = true →
      chainB (attachNext h w c) pr (as ++ c :: w :: bs) none = true := by
  intro as
  induction as with
  | nil =>
    intro pr h hnd hw hch
    rw [List.nil_append] at hch hnd hw ⊢
    rw [chainB_cons] at hch
    obtain ⟨hcp, hcn, hrest⟩ := hch
    have hwc : w ≠ c := fun e => hw (by simp [e])
    have hwbs : w ∉ bs := fun hm => hw (by simp [hm])
    have hcbs : c ∉ bs := (List.nodup_cons.mp hnd).1
    have hcnc : (h c).next ≠ some c := by
      rw [hcn]
      intro e
      rcases headOr_mem bs none c e with hm | hm
      · exact hcbs hm
      · exact Option.noConfusion hm
    have hcnw : (h c).next ≠ some w := by
      rw [hcn]
      intro e
      rcases headOr_mem bs none w e with hm | hm
      · exact hwbs hm
      · exact Option.noConfusion hm
    rw [chainB_cons]
    refine ⟨?_, ?_, ?_⟩
    · rw [attachNext_prev_node h w c (Ne.symm hwc) hcnc]
      exact hcp
    · simp [attachNext_next_node h w c]
    · rw [chainB_cons]
      refine ⟨attachNext_prev_self h w c hwc hcnw, ?_, ?_⟩
      · rw [attachNext_next_self h w c hwc]
        exact hcn
      · cases bs with
        | nil => simp
        | cons n bs' =>
          have hcn' : (h c).next = some n := by simpa using hcn
          have hnw : n ≠ w := fun e => hwbs (by simp [← e])
          have hnc : n ≠ c := fun e => hcbs (by simp [← e])
          have hnbs' : n ∉ bs' := (List.nodup_cons.mp (List.nodup_cons.mp hnd).2).1
          rw [chainB_cons] at hrest ⊢
          obtain ⟨hnp, hnn, hrest'⟩ := hrest
          refine ⟨?_, ?_, ?_⟩
          · rw [attachNext_prev_nextnode h w c n hcn']
          · rw [attachNext_next_other h w c n hnw hnc]
            exact hnn
          · rw [chainB_ext h (attachNext h w c) bs' (some n) none]
            · exact hrest'
            · intro x hx
              have hxw : x ≠ w := fun e => hwbs (by simp [e ▸ hx])
              have hxc : x ≠ c := fun e => hcbs (by simp [e ▸ hx])
              have hxn : (h c).next ≠ some x := by
                rw [hcn']
                intro e
                have : n = x := by injection e
                exact hnbs' (this ▸ hx)
              exact ⟨attachNext_prev_other h w c x hxw hxc hxn,
                attachNext_next_other h w c x hxw hxc⟩
  | cons a as ih =>
    intro pr h hnd hw hch
    rw [List.cons_append] at hch hnd hw ⊢
    rw [chainB_cons] at hch ⊢
    obtain ⟨hap, han, hrest⟩ := hch
    have hna : a ∉ as ++ c :: bs := (List.nodup_cons.mp hnd).1
    have hnd' : (as ++ c :: bs).Nodup := (List.nodup_cons.mp hnd).2
    have hwa : w ≠ a := fun e => hw (by simp [e])
    have hw' : w ∉ as ++ c :: bs := fun hm => hw (by simp [hm])
    have hac : a ≠ c := fun e => hna (by simp [e])
    have hbd := chain_boundary h as bs c (some a) none hrest
    have hih := ih (some a) h hnd' hw' hrest
    refine ⟨?_, ?_, hih⟩
    · have hcna : (h c).next ≠ some a := by
        rw [hbd.2]
        intro e
        rcases headOr_mem bs none a e with hm | hm
        · exact hna (by simp [hm])
        · exact Option.noConfusion hm
      rw [attachNext_prev_other h w c a (Ne.symm hwa) hac hcna]
      exact hap
    · rw [attachNext_next_other h w c a (Ne.symm hwa) hac, han]
      cases as <;> simp

theorem attachPrev_chain (c w : Nat) (bs : List Nat) :
    ∀ (as : List Nat) (pr : Option Nat) (h : Heap),
      (as ++ c :: bs).Nodup →
      w ∉ as ++ c :: bs →
      (∀ q, pr = some q → q ≠ w ∧ q ∉ as ++ c :: bs) →
      chainB h pr (as ++ c :: bs) none = true →
      chainB (attachPrev h w c) pr (as ++ w :: c :: bs) none = true := by
  intro as
  induction as with
  | nil =>
    intro pr h hnd hw hq hch
    rw [List.nil_append] at hch hnd hw hq ⊢
    rw [chainB_cons] at hch
    obtain ⟨hcp, hcn, hrest⟩ := hch
    have hwc : w ≠ c := fun e => hw (by simp [e])
    have hwbs : w ∉ bs := fun hm => hw (by simp [hm])
    have hcbs : c ∉ bs := (List.nodup_cons.mp hnd).1
    have hcpw : (h c).prev ≠ some w := by
      rw [hcp]
      intro e
      exact (hq w e).1 rfl
    have hcpc : (h c).prev ≠ some c := by
      rw [hcp]
      intro e
      exact (hq c e).2 (by simp)
    rw [chainB_cons]
    refine ⟨?_, ?_, ?_⟩
    · rw [attachPrev_prev_self h w c hwc]
      exact hcp
    · simp [attachPrev_next_self h w c hwc hcpw]
    · rw [chainB_cons]
      refine ⟨attachPrev_prev_node h w c, ?_, ?_⟩
      · rw [attachPrev_next_node h w c (Ne.symm hwc) hcpc]
        exact hcn
      · cases bs with
        | nil => simp
        | cons n bs' =>
          have hnw : n ≠ w := fun e => hwbs (by simp [← e])
          have hnc : n ≠ c := fun e => hcbs (by simp [← e])
          rw [chainB_cons] at hrest ⊢
          obtain ⟨hnp, hnn, hrest'⟩ := hrest
          have hcpn : (h c).prev ≠ some n := by
            rw [hcp]
            intro e
            exact (hq n e).2 (by simp)
          refine ⟨?_, ?_, ?_⟩
          · rw [attachPrev_prev_other h w c n hnw hnc]
            exact hnp
          · rw [attachPrev_next_other h w c n hnw hnc hcpn]
            exact hnn
          · rw [chainB_ext h (attachPrev h w c) bs' (some n) none]
            · exact hrest'
            · intro x hx
              have hxw : x ≠ w := fun e => hwbs (by simp [e ▸ hx])
              have hxc : x ≠ c := fun e => hcbs (by simp [e ▸ hx])
              have hxp : (h c).prev ≠ some x := by
                rw [hcp]
                intro e
                exact (hq x e).2 (by simp [hx])
              exact ⟨attachPrev_prev_other h w c x hxw hxc,
                attachPrev_next_other h w c x hxw hxc hxp⟩
  | cons a as ih =>
    intro pr h hnd hw hq hch
    rw [List.cons_append] at hch hnd hw ⊢
    rw [chainB_cons] at hch ⊢
    obtain ⟨hap, han, hrest⟩ := hch
    have hna : a ∉ as ++ c :: bs := (List.nodup_cons.mp hnd).1
    have hnd' : (as ++ c :: bs).Nodup := (List.nodup_cons.mp hnd).2
    have hwa : w ≠ a := fun e => hw (by simp [e])
    have hw' : w ∉ as ++ c :: bs := fun hm => hw (by simp [hm])
    have hac : a ≠ c := fun e => hna (by simp [e])
    have hq' : ∀ q, (some a : Option Nat) = some q → q ≠ w ∧ q ∉ as ++ c :: bs := by
      intro q e
      have : a = q := by injection e
      subst this
      exact ⟨fun e2 => hwa e2.symm, hna⟩
    have hbd := chain_boundary h as bs c (some a) none hrest
    have hih := ih (some a) h hnd' hw' hq' hrest
    refine ⟨?_, ?_, hih⟩
    · rw [attachPrev_prev_other h w c a (Ne.symm hwa) hac]
      exact hap
    · cases as with
      | nil =>
        have hcpa : (h c).prev = some a := by simpa using hbd.1
        rw [attachPrev_next_prevnode h w c a hcpa]
        simp
      | cons a'' as''' =>
        have hcpna : (h c).prev ≠ some a := by
          rw [hbd.1]
          intro e
          have hm := lastOr_mem_of_ne_nil (a'' :: as''') (some a) a (by simp) e
          refine hna ?_
          simp at hm ⊢
          tauto
        rw [attachPrev_next_other h w c a (Ne.symm hwa) hac hcpna, han]
        simp

theorem detach_chain_frame (h : Heap) (c : Nat) (ys : List Nat) (pr nx : Option Nat)
    (hc : c ∉ ys) (hp : ∀ j ∈ ys, (h c).prev ≠ some j)
    (hn : ∀ j ∈ ys, (h c).next ≠ some j)
    (hch : chainB h pr ys nx = true) : chainB (detach h c) pr ys nx = true := by
  rw [chainB_ext h (detach h c) ys pr nx]
  · exact hch
  · intro x hx
    exact ⟨detach_prev_other h c x (fun e => hc (e ▸ hx)) (hn x hx),
      detach_next_other h c x (fun e => hc (e ▸ hx)) (hp x hx)⟩

theorem attachNext_chain_frame (h : Heap) (w c : Nat) (ys : List Nat)
    (pr nx : Option Nat) (hw : w ∉ ys) (hc : c ∉ ys)
    (hn : ∀ j ∈ ys, (h c).next ≠ some j)
    (hch : chainB h pr ys nx = true) : chainB (attachNext h w c) pr ys nx = true := by
  rw [chainB_ext h (attachNext h w c) ys pr nx]
  · exact hch
  · intro x hx
    exact ⟨attachNext_prev_other h w c x (fun e => hw (e ▸ hx)) (fun e => hc (e ▸ hx))
        (hn x hx),
      attachNext_next_other h w c x (fun e => hw (e ▸ hx)) (fun e => hc (e ▸ hx))⟩

theorem attachPrev_chain_frame (h : Heap) (w c : Nat) (ys : List Nat)
    (pr nx : Option Nat) (hw : w ∉ ys) (hc : c ∉ ys)
    (hp : ∀ j ∈ ys, (h c).prev ≠ some j)
    (hch : chainB h pr ys nx = true) : chainB (attachPrev h w c) pr ys nx = true := by
  rw [chainB_ext h (attachPrev h w c) ys pr nx]
  · exact hch
  · intro x hx
    exact ⟨attachPrev_prev_other h w c x (fun e => hw (e ▸ hx)) (fun e => hc (e ▸ hx)),
      attachPrev_next_other h w c x (fun e => hw (e ▸ hx)) (fun e => hc (e ▸ hx))
        (hp x hx)⟩

@[simp]
theorem traverseF_none (h : Heap) (f : Nat) : traverseF h f none = [] := by
  cases f <;> rfl

@[simp]
theorem traverseR_none (h : Heap) (f : Nat) : traverseR h f none = [] := by
  cases f <;> rfl

theorem traverseF_chain (h : Heap) :
    ∀ (xs : List Nat) (pr : Option Nat) (fuel : Nat),
      xs.length ≤ fuel → chainB h pr xs none = true →
      traverseF h fuel (headOr xs none) = xs := by
  intro xs
  induction xs with
  | nil => intro pr fuel _ _; simp
  | cons x xs ih =>
    intro pr fuel hf hch
    rw [chainB_cons] at hch
    obtain ⟨hxp, hxn, hrest⟩ := hch
    cases fuel with
    | zero => simp at hf
    | succ f =>
      show x :: traverseF h f ((h x).next) = x :: xs
      rw [hxn, ih (some x) f (by simpa using hf) hrest]

theorem traverseR_chain (h : Heap) :
    ∀ (xs : List Nat) (nx : Option Nat) (fuel : Nat),
      xs.length ≤ fuel → chainB h none xs nx = true →
      traverseR h fuel (lastOr xs none) = xs.reverse := by
  intro xs
  induction xs using List.reverseRecOn with
  | nil => intro nx fuel _ _; simp
  | append_singleton as l ih =>
    intro nx fuel hf hch
    rw [chainB_append] at hch
    obtain ⟨hch1, hch2⟩ := hch
    rw [chainB_cons] at hch2
    obtain ⟨hlp, hln, _⟩ := hch2
    have hlast : lastOr (as ++ [l]) none = some l := by
      rw [lastOr_append]
      simp [lastOr]
    rw [hlast]
    cases fuel with
    | zero => simp at hf
    | succ f =>
      show l :: traverseR h f ((h l).prev) = (as ++ [l]).reverse
      rw [hlp, ih (some l) f (by simp at hf ⊢; omega) hch1]
      simp

theorem rep_traverseF (h : Heap) (s : LState) (xs : List Nat) (fuel : Nat)
    (hr : listRep h s xs) (hf : xs.length ≤ fuel) :
    traverseF h fuel s.head = xs := by
  rw [hr.1]
  exact traverseF_chain h xs none fuel hf hr.2.2.1

theorem rep_traverseR (h : Heap) (s : LState) (xs : List Nat) (fuel : Nat)
    (hr : listRep h s xs) (hf : xs.length ≤ fuel) :
    traverseR h fuel s.last = xs.reverse := by
  rw [hr.2.1]
  exact traverseR_chain h xs none fuel hf hr.2.2.1

theorem lastOr_of_ne_nil (xs : List Nat) (d : Option Nat) (hne : xs ≠ []) :
    ∃ y, y ∈ xs ∧ lastOr xs d = some y := by
  cases hL : xs.getLast? with
  | none => exact absurd (List.getLast?_eq_none_iff.mp hL) hne
  | some l =>
    refine ⟨l, ?_, by simp [lastOr, hL]⟩
    obtain ⟨hne', hy⟩ := List.mem_getLast?_eq_getLast (l := xs) (by rw [hL]; rfl)
    rw [hy]
    exact List.getLast_mem hne'

theorem rep_head_iff_last (h : Heap) (s : LState) (xs : List Nat)
    (hr : listRep h s xs) : (s.head = none ↔ s.last = none) := by
  cases xs with
  | nil => simp [hr.1, hr.2.1]
  | cons x xs =>
    obtain ⟨y, _, hy⟩ := lastOr_of_ne_nil (x :: xs) none (by simp)
    simp [hr.1, hr.2.1, hy]

theorem inv_spec (h : Heap) (s : LState) (hs : Inv h s) :
    (s.head = none ↔ s.last = none) ∧
      (traverseF h s.length s.head).length = s.length := by
  obtain ⟨xs, hr⟩ := hs
  refine ⟨rep_head_iff_last h s xs hr, ?_⟩
  rw [rep_traverseF h s xs s.length hr (le_of_eq hr.2.2.2.1.symm), hr.2.2.2.1]

theorem lastOr_indep (xs : List Nat) (d d' : Option Nat) (hne : xs ≠ []) :
    lastOr xs d = lastOr xs d' := by
  unfold lastOr
  cases hL : xs.getLast? with
  | none => exact absurd (List.getLast?_eq_none_iff.mp hL) hne
  | some l => rfl

theorem nodup_insert_next (as bs : List Nat) (c w : Nat)
    (hnd : (as ++ c :: bs).Nodup) (hw : w ∉ as ++ c :: bs) :
    (as ++ c :: w :: bs).Nodup := by
  have e1 : as ++ c :: w :: bs = (as ++ [c]) ++ w :: bs := by simp
  have e2 : (as ++ [c]) ++ bs = as ++ c :: bs := by simp
  rw [e1, List.nodup_middle, List.nodup_cons, e2]
  exact ⟨hw, hnd⟩

theorem nodup_insert_prev (as bs : List Nat) (c w : Nat)
    (hnd : (as ++ c :: bs).Nodup) (hw : w ∉ as ++ c :: bs) :
    (as ++ w :: c :: bs).Nodup := by
  rw [List.nodup_middle, List.nodup_cons]
  exact ⟨hw, hnd⟩

theorem remove_rep (h : Heap) (s : LState) (as bs : List Nat) (c : Nat)
    (hr : listRep h s (as ++ c :: bs)) :
    remove h s (some c) =
      some (detach h c,
        { head := if s.head = some c then (h c).next else s.head,
          last := if s.last = some c then (h c).prev else s.last,
          length := s.length - 1 }) ∧
    listRep (detach h c)
      { head := if s.head = some c then (h c).next else s.head,
        last := if s.last = some c then (h c).prev else s.last,
        length := s.length - 1 } (as ++ bs) := by
  obtain ⟨hH, hL, hch, hlen, hnd⟩ := hr
  have hbd := chain_boundary h as bs c none none hch
  refine ⟨rfl, ?_, ?_, ?_, ?_, ?_⟩
  · cases as with
    | nil =>
      have hhc : s.head = some c := by simpa using hH
      show (if s.head = some c then (h c).next else s.head) = _
      rw [if_pos hhc, hbd.2]
      simp
    | cons a as' =>
      rw [List.cons_append] at hnd
      have hac : a ≠ c := by
        have hm : a ∉ as' ++ c :: bs := (List.nodup_cons.mp hnd).1
        exact fun e => hm (by simp [e])
      have hH' : s.head = some a := by simpa using hH
      show (if s.head = some c then (h c).next else s.head) = _
      rw [if_neg (by rw [hH']; exact fun e => hac (by injection e)), hH']
      simp
  · cases bs with
    | nil =>
      have hlc : s.last = some c := by
        rw [hL, lastOr_append]
        simp [lastOr]
      show (if s.last = some c then (h c).prev else s.last) = _
      rw [if_pos hlc, hbd.1]
      simp
    | cons n bs' =>
      have hbne : (n :: bs') ≠ [] := by simp
      have hlx : s.last = lastOr (n :: bs') (lastOr (as ++ [c]) none) := by
        rw [hL]
        have e : as ++ c :: n :: bs' = (as ++ [c]) ++ (n :: bs') := by simp
        rw [e, lastOr_append]
      obtain ⟨l, hlmem, hle⟩ :=
        lastOr_of_ne_nil (n :: bs') (lastOr (as ++ [c]) none) hbne
      have hlc : l ≠ c := by
        intro e
        subst e
        rw [List.nodup_middle, List.nodup_cons] at hnd
        exact hnd.1 (by simp [List.mem_cons.mp hlmem])
      show (if s.last = some c then (h c).prev else s.last) = _
      rw [if_neg (by rw [hlx, hle]; exact fun e => hlc (by injection e))]
      rw [hlx, hle, lastOr_append,
        lastOr_indep (n :: bs') (lastOr as none) (lastOr (as ++ [c]) none) hbne]
      exact hle.symm
  · exact detach_chain c bs as none h hnd (fun q e => Option.noConfusion e) hch
  · show s.length - 1 = _
    rw [hlen]
    simp
  · rw [List.nodup_middle] at hnd
    exact (List.nodup_cons.mp hnd).2

theorem rep_head_some (h : Heap) (s : LState) (as bs : List Nat) (c : Nat)
    (hr : listRep h s (as ++ c :: bs)) : s.head = headOr as (some c) := by
  rw [hr.1, headOr_append]
  rfl

theorem rep_not_empty (h : Heap) (s : LState) (as bs : List Nat) (c : Nat)
    (hr : listRep h s (as ++ c :: bs)) : isEmpty s = false := by
  have hh := rep_head_some h s as bs c hr
  unfold isEmpty
  cases as <;> simp_all [headOr]

theorem insertNext_rep (h : Heap) (s : LState) (as bs : List Nat) (c w : Nat)
    (hr : listRep h s (as ++ c :: bs))
    (hwp : (h w).prev = none) (hwn : (h w).next = none)
    (hw : w ∉ as ++ c :: bs) :
    insertNext h s (some c) (some w) =
      some (attachNext h w c,
        { head := s.head,
          last := if s.last = some c then some w else s.last,
          length := s.length + 1 }, w) ∧
    listRep (attachNext h w c)
      { head := s.head,
        last := if s.last = some c then some w else s.last,
        length := s.length + 1 } (as ++ c :: w :: bs) := by
  obtain ⟨hH, hL, hch, hlen, hnd⟩ := hr
  constructor
  · show (let h1 := detach h w
         if isEmpty s then _ else _) = _
    rw [detach_noop h w hwp hwn,
      rep_not_empty h s as bs c ⟨hH, hL, hch, hlen, hnd⟩]
    rfl
  · refine ⟨?_, ?_, ?_, ?_, ?_⟩
    · rw [hH]
      show _ = headOr (as ++ c :: w :: bs) none
      rw [headOr_append, headOr_append]
      rfl
    · cases bs with
      | nil =>
        have hlc : s.last = some c := by
          rw [hL, lastOr_append]
          simp [lastOr]
        show (if s.last = some c then some w else s.last) = _
        rw [if_pos hlc]
        have e : as ++ c :: w :: ([] : List Nat) = (as ++ [c]) ++ [w] := by simp
        rw [e, lastOr_append]
        simp [lastOr]
      | cons n bs' =>
        have hbne : (n :: bs') ≠ [] := by simp
        have hlx : s.last = lastOr (n :: bs') (lastOr (as ++ [c]) none) := by
          rw [hL]
          have e : as ++ c :: n :: bs' = (as ++ [c]) ++ (n :: bs') := by simp
          rw [e, lastOr_append]
        obtain ⟨l, hlmem, hle⟩ :=
          lastOr_of_ne_nil (n :: bs') (lastOr (as ++ [c]) none) hbne
        have hlc : l ≠ c := by
          intro e
          subst e
          rw [List.nodup_middle, List.nodup_cons] at hnd
          exact hnd.1 (by simp [List.mem_cons.mp hlmem])
        show (if s.last = some c then some w else s.last) = _
        rw [if_neg (by rw [hlx, hle]; exact fun e => hlc (by injection e))]
        rw [hlx, hle]
        have e : as ++ c :: w :: n :: bs' = (as ++ [c, w]) ++ (n :: bs') := by simp
        rw [e, lastOr_append,
          lastOr_indep (n :: bs') (lastOr (as ++ [c, w]) none)
            (lastOr (as ++ [c]) none) hbne]
        exact hle.symm
    · exact attachNext_chain c w bs as none h hnd hw hch
    · show s.length + 1 = _
      rw [hlen]
      simp
      omega
    · exact nodup_insert_next as bs c w hnd hw

theorem insertPrev_rep (h : Heap) (s : LState) (as bs : List Nat) (c w : Nat)
    (hr : listRep h s (as ++ c :: bs))
    (hwp : (h w).prev = none) (hwn : (h w).next = none)
    (hw : w ∉ as ++ c :: bs) :
    insertPrev h s (some c) (some w) =
      some (attachPrev h w c,
        { head := if s.head = some c then some w else s.head,
          last := s.last,
          length := s.length + 1 }, w) ∧
    listRep (attachPrev h w c)
      { head := if s.head = some c then some w else s.head,
        last := s.last,
        length := s.length + 1 } (as ++ w :: c :: bs) := by
  obtain ⟨hH, hL, hch, hlen, hnd⟩ := hr
  constructor
  · show (let h1 := detach h w
         if isEmpty s then _ else _) = _
    rw [detach_noop h w hwp hwn,
      rep_not_empty h s as bs c ⟨hH, hL, hch, hlen, hnd⟩]
    rfl
  · refine ⟨?_, ?_, ?_, ?_, ?_⟩
    · cases as with
      | nil =>
        have hhc : s.head = some c := by simpa using hH
        show (if s.head = some c then some w else s.head) = _
        rw [if_pos hhc]
        simp
      | cons a as' =>
        rw [List.cons_append] at hnd
        have hac : a ≠ c := by
          have hm : a ∉ as' ++ c :: bs := (List.nodup_cons.mp hnd).1
          exact fun e => hm (by simp [e])
        have hH' : s.head = some a := by simpa using hH
        show (if s.head = some c then some w else s.head) = _
        rw [if_neg (by rw [hH']; exact fun e => hac (by injection e)), hH']
        simp
    · rw [hL]
      show _ = lastOr (as ++ w :: c :: bs) none
      have e1 : as ++ c :: bs = as ++ [] ++ c :: bs := by simp
      have e2 : as ++ w :: c :: bs = (as ++ [w]) ++ c :: bs := by simp
      rw [e2, lastOr_append, lastOr_append,
        lastOr_indep (c :: bs) (lastOr as none) (lastOr (as ++ [w]) none) (by simp)]
    · exact attachPrev_chain c w bs as none h hnd hw
        (fun q e => Option.noConfusion e) hch
    · show s.length + 1 = _
      rw [hlen]
      simp
      omega
    · exact nodup_insert_prev as bs c w hnd hw

theorem insert_empty_branch (h : Heap) (s : LState) (w : Nat)
    (hr : listRep h s []) (hwp : (h w).prev = none) (hwn : (h w).next = none) :
    listRep h { head := some w, last := some w, length := s.length + 1 } [w] := by
  obtain ⟨hH, hL, hch, hlen, hnd⟩ := hr
  refine ⟨rfl, by simp [lastOr], ?_, by simp [hlen], by simp⟩
  rw [chainB_cons]
  exact ⟨hwp, hwn, rfl⟩

theorem insertNext_empty (h : Heap) (s : LState) (cur : Option Nat) (w : Nat)
    (hr : listRep h s []) (hwp : (h w).prev = none) (hwn : (h w).next = none) :
    insertNext h s cur (some w) =
      some (h, { head := some w, last := some w, length := s.length + 1 }, w) ∧
    listRep h { head := some w, last := some w, length := s.length + 1 } [w] := by
  obtain ⟨hH, hL, hch, hlen, hnd⟩ := hr
  constructor
  · show (let h1 := detach h w
         if isEmpty s then _ else _) = _
    rw [detach_noop h w hwp hwn]
    have : isEmpty s = true := by simp [isEmpty, hH, hL]
    rw [this]
    simp
  · exact insert_empty_branch h s w ⟨hH, hL, hch, hlen, hnd⟩ hwp hwn

theorem insertPrev_empty (h : Heap) (s : LState) (cur : Option Nat) (w : Nat)
    (hr : listRep h s []) (hwp : (h w).prev = none) (hwn : (h w).next = none) :
    insertPrev h s cur (some w) =
      some (h, { head := some w, last := some w, length := s.length + 1 }, w) ∧
    listRep h { head := some w, last := some w, length := s.length + 1 } [w] := by
  obtain ⟨hH, hL, hch, hlen, hnd⟩ := hr
  constructor
  · show (let h1 := detach h w
         if isEmpty s then _ else _) = _
    rw [detach_noop h w hwp hwn]
    have : isEmpty s = true := by simp [isEmpty, hH, hL]
    rw [this]
    simp
  · exact insert_empty_branch h s w ⟨hH, hL, hch, hlen, hnd⟩ hwp hwn

theorem insertLast_rep (h : Heap) (s : LState) (ys : List Nat) (w : Nat)
    (hr : listRep h s ys) (hwp : (h w).prev = none) (hwn : (h w).next = none)
    (hw : w ∉ ys) :
    ∃ h' s', insertLast h s (some w) = some (h', s', w) ∧
      listRep h' s' (ys ++ [w]) ∧
      ∀ j, j ∉ ys → j ≠ w → h' j = h j := by
  cases ys using List.reverseRecOn with
  | nil =>
    have he := insertNext_empty h s s.last w hr hwp hwn
    exact ⟨h, _, he.1, by simpa using he.2, fun j _ _ => rfl⟩
  | append_singleton as c ih =>
    have hlc : s.last = some c := by
      rw [hr.2.1, lastOr_append]
      simp [lastOr]
    have hrr : listRep h s (as ++ c :: []) := hr
    have hni := insertNext_rep h s as [] c w hrr hwp hwn (by simpa using hw)
    have hbd := chain_boundary h as [] c none none hrr.2.2.1
    have hcn : (h c).next = none := by simpa using hbd.2
    refine ⟨attachNext h w c,
      { head := s.head, last := if s.last = some c then some w else s.last,
        length := s.length + 1 }, ?_, ?_, ?_⟩
    · show insertNext h s s.last (some w) = _
      conv_lhs => rw [hlc]
      exact hni.1
    · have : as ++ [c] ++ [w] = as ++ c :: w :: [] := by simp
      rw [this]
      exact hni.2
    · intro j hj hjw
      have hjc : j ≠ c := fun e => hj (by simp [e])
      refine node_eq _ _ ?_ ?_ (attachNext_val h w c j)
      · exact attachNext_prev_other h w c j hjw hjc (by rw [hcn]; exact fun e => Option.noConfusion e)
      · exact attachNext_next_other h w c j hjw hjc

theorem insertHead_rep (h : Heap) (s : LState) (ys : List Nat) (w : Nat)
    (hr : listRep h s ys) (hwp : (h w).prev = none) (hwn : (h w).next = none)
    (hw : w ∉ ys) :
    ∃ h' s', insertHead h s (some w) = some (h', s', w) ∧
      listRep h' s' (w :: ys) ∧
      ∀ j, j ∉ ys → j ≠ w → h' j = h j := by
  cases ys with
  | nil =>
    have he := insertPrev_empty h s s.head w hr hwp hwn
    exact ⟨h, _, he.1, by simpa using he.2, fun j _ _ => rfl⟩
  | cons c bs =>
    have hhc : s.head = some c := by simpa using hr.1
    have hrr : listRep h s ([] ++ c :: bs) := hr
    have hpi := insertPrev_rep h s [] bs c w hrr hwp hwn (by simpa using hw)
    have hbd := chain_boundary h [] bs c none none hrr.2.2.1
    have hcp : (h c).prev = none := by simpa using hbd.1
    refine ⟨attachPrev h w c,
      { head := if s.head = some c then some w else s.head, last := s.last,
        length := s.length + 1 }, ?_, ?_, ?_⟩
    · show insertPrev h s s.head (some w) = _
      conv_lhs => rw [hhc]
      exact hpi.1
    · exact hpi.2
    · intro j hj hjw
      have hjc : j ≠ c := fun e => hj (by simp [e])
      refine node_eq _ _ ?_ ?_ (attachPrev_val h w c j)
      · exact attachPrev_prev_other h w c j hjw hjc
      · exact attachPrev_next_other h w c j hjw hjc
          (by rw [hcp]; exact fun e => Option.noConfusion e)

theorem chain_prev_mem (h : Heap) (as bs : List Nat) (c : Nat) (pr nx : Option Nat)
    (hch : chainB h pr (as ++ c :: bs) nx = true) (hpr : pr = none) :
    ∀ j, (h c).prev = some j → j ∈ as := by
  intro j he
  have hbd := chain_boundary h as bs c pr nx hch
  rw [hbd.1, hpr] at he
  rcases lastOr_mem as none j he with hm | hm
  · exact hm
  · exact absurd hm (fun e => Option.noConfusion e)

theorem chain_next_mem (h : Heap) (as bs : List Nat) (c : Nat) (pr nx : Option Nat)
    (hch : chainB h pr (as ++ c :: bs) nx = true) (hnx : nx = none) :
    ∀ j, (h c).next = some j → j ∈ bs := by
  intro j he
  have hbd := chain_boundary h as bs c pr nx hch
  rw [hbd.2, hnx] at he
  rcases headOr_mem bs none j he with hm | hm
  · exact hm
  · exact absurd hm (fun e => Option.noConfusion e)

theorem rep_ext (h h' : Heap) (s : LState) (xs : List Nat)
    (hr : listRep h s xs) (he : ∀ j ∈ xs, h' j = h j) : listRep h' s xs := by
  obtain ⟨hH, hL, hch, hlen, hnd⟩ := hr
  refine ⟨hH, hL, ?_, hlen, hnd⟩
  rw [chainB_ext h h' xs none none (fun x hx => by rw [he x hx]; exact ⟨rfl, rfl⟩)]
  exact hch

theorem detach_rep_frame (h : Heap) (s2 : LState) (ys as bs : List Nat) (x : Nat)
    (hch : chainB h none (as ++ x :: bs) none = true)
    (hr2 : listRep h s2 ys)
    (hdisj : ∀ j ∈ as ++ x :: bs, j ∉ ys) : listRep (detach h x) s2 ys := by
  obtain ⟨hH, hL, hch2, hlen, hnd⟩ := hr2
  refine ⟨hH, hL, ?_, hlen, hnd⟩
  refine detach_chain_frame h x ys none none (hdisj x (by simp)) ?_ ?_ hch2
  · intro j hj he
    exact hdisj j (by simp [chain_prev_mem h as bs x none none hch rfl j he]) hj
  · intro j hj he
    exact hdisj j (by simp [chain_next_mem h as bs x none none hch rfl j he]) hj

theorem attachNext_rep_frame (h : Heap) (s : LState) (zs : List Nat) (x c : Nat)
    (hr : listRep h s zs) (hx : x ∉ zs) (hc : c ∉ zs)
    (hn : ∀ j ∈ zs, (h c).next ≠ some j) : listRep (attachNext h x c) s zs := by
  obtain ⟨hH, hL, hch, hlen, hnd⟩ := hr
  exact ⟨hH, hL, attachNext_chain_frame h x c zs none none hx hc hn hch, hlen, hnd⟩

theorem attachPrev_rep_frame (h : Heap) (s : LState) (zs : List Nat) (x c : Nat)
    (hr : listRep h s zs) (hx : x ∉ zs) (hc : c ∉ zs)
    (hp : ∀ j ∈ zs, (h c).prev ≠ some j) : listRep (attachPrev h x c) s zs := by
  obtain ⟨hH, hL, hch, hlen, hnd⟩ := hr
  exact ⟨hH, hL, attachPrev_chain_frame h x c zs none none hx hc hp hch, hlen, hnd⟩

theorem insertNextFrom_rep (h : Heap) (s2 s1 : LState) (cs ds as bs : List Nat)
    (c x : Nat)
    (hr2 : listRep h s2 (cs ++ c :: ds)) (hr1 : listRep h s1 (as ++ x :: bs))
    (hdisj : ∀ j ∈ as ++ x :: bs, j ∉ cs ++ c :: ds) :
    ∃ h' s2' s1', insertNextFrom h s2 s1 (some c) (some x) = some (h', s2', s1', x) ∧
      listRep h' s2' (cs ++ c :: x :: ds) ∧ listRep h' s1' (as ++ bs) := by
  have hrm := remove_rep h s1 as bs x hr1
  have hr2' : listRep (detach h x) s2 (cs ++ c :: ds) :=
    detach_rep_frame h s2 _ as bs x hr1.2.2.1 hr2 hdisj
  have hxmem : x ∉ cs ++ c :: ds := hdisj x (by simp)
  have hins := insertNext_rep (detach h x) s2 cs ds c x hr2'
    (detach_prev_self h x) (detach_next_self h x) hxmem
  have hcs : c ∉ as ++ x :: bs := by
    intro hm
    exact hdisj c hm (by simp)
  have hcx : c ≠ x := fun e => hcs (by simp [e])
  have hsub : ∀ j, j ∈ as ++ bs → j ∈ as ++ x :: bs := by
    intro j hj
    simp only [List.mem_append, List.mem_cons] at hj ⊢
    tauto
  have hxnotab : x ∉ as ++ bs := by
    intro hm
    have hnd := hr1.2.2.2.2
    rw [List.nodup_middle, List.nodup_cons] at hnd
    exact hnd.1 hm
  have hcnotab : c ∉ as ++ bs := fun hm => hdisj c (hsub c hm) (by simp)
  have hc_next : ((detach h x) c).next = (h c).next := by
    refine detach_next_other h x c hcx ?_
    intro he
    exact hcs (by simp [chain_prev_mem h as bs x none none hr1.2.2.1 rfl c he])
  have hrep1' : listRep (attachNext (detach h x) x c)
      { head := if s1.head = some x then (h x).next else s1.head,
        last := if s1.last = some x then (h x).prev else s1.last,
        length := s1.length - 1 } (as ++ bs) := by
    refine attachNext_rep_frame (detach h x) _ (as ++ bs) x c hrm.2 hxnotab hcnotab ?_
    intro j hj he
    rw [hc_next] at he
    have hjds : j ∈ ds := chain_next_mem h cs ds c none none hr2.2.2.1 rfl j he
    exact hdisj j (hsub j hj) (by simp [hjds])
  refine ⟨attachNext (detach h x) x c,
    { head := s2.head, last := if s2.last = some c then some x else s2.last,
      length := s2.length + 1 },
    { head := if s1.head = some x then (h x).next else s1.head,
      last := if s1.last = some x then (h x).prev else s1.last,
      length := s1.length - 1 }, ?_, hins.2, hrep1'⟩
  show (match remove h s1 (some x) with
        | none => none
        | some (h1, other1) =>
          match insertNext h1 s2 (some c) (some x) with
          | none => none
          | some (h2, s1v, r) => some (h2, s1v, other1, r)) = _
  simp only [hrm.1]
  simp only [hins.1]

theorem insertLastFrom_rep (h : Heap) (tgt src : LState) (ys bs : List Nat) (x : Nat)
    (hrt : listRep h tgt ys) (hrs : listRep h src (x :: bs))
    (hdisj : ∀ j ∈ x :: bs, j ∉ ys) :
    ∃ h' tgt' src', insertLastFrom h tgt src (some x) = some (h', tgt', src', x) ∧
      listRep h' tgt' (ys ++ [x]) ∧ listRep h' src' bs ∧
      (∀ j, j ∉ ys → j ∉ x :: bs → h' j = h j) := by
  have hrs' : listRep h src ([] ++ x :: bs) := hrs
  have hrm := remove_rep h src [] bs x hrs'
  have hrt1 : listRep (detach h x) tgt ys :=
    detach_rep_frame h tgt ys [] bs x hrs'.2.2.1 hrt hdisj
  have hxnm : x ∉ ys := hdisj x (by simp)
  obtain ⟨h2, tgt', heq2, hrept, hframe2⟩ :=
    insertLast_rep (detach h x) tgt ys x hrt1 (detach_prev_self h x)
      (detach_next_self h x) hxnm
  have hbd := chain_boundary h [] bs x none none hrs'.2.2.1
  have hxp0 : (h x).prev = none := by simpa using hbd.1
  have hxbs : x ∉ bs := (List.nodup_cons.mp hrs.2.2.2.2).1
  have hsrc2 : listRep h2
      { head := if src.head = some x then (h x).next else src.head,
        last := if src.last = some x then (h x).prev else src.last,
        length := src.length - 1 } bs := by
    refine rep_ext (detach h x) h2 _ bs hrm.2 ?_
    intro j hj
    exact hframe2 j (hdisj j (by simp [hj])) (fun e => hxbs (e ▸ hj))
  refine ⟨h2, tgt',
    { head := if src.head = some x then (h x).next else src.head,
      last := if src.last = some x then (h x).prev else src.last,
      length := src.length - 1 }, ?_, hrept, hsrc2, ?_⟩
  · show (match remove h src (some x) with
          | none => none
          | some (h1, other1) =>
            match insertLast h1 tgt (some x) with
            | none => none
            | some (h2v, s1v, r) => some (h2v, s1v, other1, r)) = _
    simp only [hrm.1]
    simp only [heq2]
  · intro j hjy hjxbs
    have hjx : j ≠ x := fun e => hjxbs (by simp [e])
    have h1j : (detach h x) j = h j := by
      refine node_eq _ _ ?_ ?_ (detach_val h x j)
      · refine detach_prev_other h x j hjx ?_
        rw [hbd.2]
        intro he
        rcases headOr_mem bs none j he with hm | hm
        · exact hjxbs (by simp [hm])
        · exact Option.noConfusion hm
      · exact detach_next_other h x j hjx
          (by rw [hxp0]; exact fun e => Option.noConfusion e)
    rw [hframe2 j hjy hjx, h1j]

@[simp]
theorem drainLoop_none (fuel : Nat) (h : Heap) (tgt src : LState) :
    drainLoop fuel h tgt src none = some (h, tgt, src) := by
  cases fuel <;> rfl

theorem drainLoop_some (f : Nat) (h : Heap) (tgt src : LState) (e : Nat) :
    drainLoop (f + 1) h tgt src (some e) =
      (match insertLastFrom h tgt src (some e) with
       | none => none
       | some (h1, tgt1, src1, _) => drainLoop f h1 tgt1 src1 ((h e).next)) := rfl

theorem drainLoop_rep :
    ∀ (xs : List Nat) (fuel : Nat) (h : Heap) (tgt src : LState) (ys : List Nat),
      xs.length ≤ fuel →
      listRep h tgt ys → listRep h src xs → (∀ j ∈ xs, j ∉ ys) →
      ∃ h' tgt' src', drainLoop fuel h tgt src src.head = some (h', tgt', src') ∧
        listRep h' tgt' (ys ++ xs) ∧ listRep h' src' [] ∧
        ∀ j, j ∉ ys → j ∉ xs → h' j = h j := by
  intro xs
  induction xs with
  | nil =>
    intro fuel h tgt src ys hf hrt hrs hdisj
    have hh : src.head = none := by simpa using hrs.1
    exact ⟨h, tgt, src, by rw [hh, drainLoop_none], by simpa using hrt, hrs,
      fun j _ _ => rfl⟩
  | cons x xs' ih =>
    intro fuel h tgt src ys hf hrt hrs hdisj
    have hh : src.head = some x := by simpa using hrs.1
    cases fuel with
    | zero => simp at hf
    | succ f =>
      obtain ⟨h1, tgt1, src1, heq1, hrept1, hrs1, hframe1⟩ :=
        insertLastFrom_rep h tgt src ys xs' x hrt hrs hdisj
      have hbd := chain_boundary h [] xs' x none none hrs.2.2.1
      have hit : (h x).next = headOr xs' none := by simpa using hbd.2
      have hndx : x ∉ xs' := (List.nodup_cons.mp hrs.2.2.2.2).1
      have hdisj' : ∀ j ∈ xs', j ∉ ys ++ [x] := by
        intro j hj hm
        rcases List.mem_append.mp hm with hm1 | hm1
        · exact hdisj j (by simp [hj]) hm1
        · have : j = x := by simpa using hm1
          exact hndx (this ▸ hj)
      obtain ⟨h2, tgt2, src2, heq2, hrep2, hrepsrc2, hframe2⟩ :=
        ih f h1 tgt1 src1 (ys ++ [x]) (by simp at hf ⊢; omega) hrept1 hrs1 hdisj'
      refine ⟨h2, tgt2, src2, ?_, by simpa using hrep2, hrepsrc2, ?_⟩
      · rw [hh, drainLoop_some]
        simp only [heq1]
        rw [hit, ← hrs1.1]
        exact heq2
      · intro j hjy hjxs
        have hjx : j ≠ x := fun e => hjxs (by simp [e])
        have hjxs' : j ∉ xs' := fun hm => hjxs (by simp [hm])
        rw [hframe2 j (by
            intro hm
            rcases List.mem_append.mp hm with hm1 | hm1
            · exact hjy hm1
            · exact hjx (by simpa using hm1)) hjxs',
          hframe1 j hjy hjxs]

theorem rep_nil_eq (h : Heap) (s : LState) (hr : listRep h s []) :
    s = { head := none, last := none, length := 0 } := by
  obtain ⟨hH, hL, _, hlen, _⟩ := hr
  cases s
  simp_all [headOr, lastOr]

theorem rep_empty (h : Heap) :
    listRep h { head := none, last := none, length := 0 } [] :=
  ⟨rfl, rfl, rfl, rfl, List.nodup_nil⟩

theorem plusOp_rep (fuel : Nat) (h : Heap) (lhs rhs : LState) (xs ys : List Nat)
    (hf1 : xs.length ≤ fuel) (hf2 : ys.length ≤ fuel)
    (hrl : listRep h lhs xs) (hrr : listRep h rhs ys)
    (hdisj : ∀ j ∈ xs, j ∉ ys) :
    ∃ h' tmp lhs' rhs', plusOp fuel h lhs rhs = some (h', tmp, lhs', rhs') ∧
      listRep h' tmp (xs ++ ys) ∧
      lhs' = { head := none, last := none, length := 0 } ∧
      rhs' = { head := none, last := none, length := 0 } := by
  obtain ⟨h1, tmp1, lhs', heq1, hrep1, hrepl, hframe1⟩ :=
    drainLoop_rep xs fuel h { head := none, last := none, length := 0 } lhs []
      hf1 (rep_empty h) hrl (fun j _ hm => absurd hm (List.not_mem_nil j))
  have hrr1 : listRep h1 rhs ys := by
    refine rep_ext h h1 rhs ys hrr ?_
    intro j hj
    exact hframe1 j (List.not_mem_nil j) (fun hm => hdisj j hm hj)
  obtain ⟨h2, tmp2, rhs', heq2, hrep2, hrepr, hframe2⟩ :=
    drainLoop_rep ys fuel h1 tmp1 rhs ([] ++ xs)
      hf2 hrep1 hrr1 (fun j hj hm => hdisj j (by simpa using hm) hj)
  refine ⟨h2, tmp2, lhs', rhs', ?_, by simpa using hrep2,
    rep_nil_eq h1 lhs' hrepl, rep_nil_eq h2 rhs' hrepr⟩
  show (match drainLoop fuel h { head := none, last := none, length := 0 }
          lhs lhs.head with
        | none => none
        | some (h1v, tmp1v, lhs1) =>
          match drainLoop fuel h1v tmp1v rhs rhs.head with
          | none => none
          | some (h2v, tmp2v, rhs1) => some (h2v, tmp2v, lhs1, rhs1)) = _
  simp only [heq1]
  simp only [heq2]

@[simp]
theorem insertLastAll_nil (h : Heap) (s : LState) :
    insertLastAll h s [] = some (h, s) := rfl

theorem insertLastAll_cons (h : Heap) (s : LState) (x : Nat) (xs : List Nat) :
    insertLastAll h s (x :: xs) =
      (match insertLast h s (some x) with
       | none => none
       | some (h1, s1, _) => insertLastAll h1 s1 xs) := rfl

theorem insertLastAll_rep :
    ∀ (xs : List Nat) (h : Heap) (s : LState) (ys : List Nat),
      listRep h s ys →
      (∀ x ∈ xs, (h x).prev = none ∧ (h x).next = none) →
      (∀ x ∈ xs, x ∉ ys) → xs.Nodup →
      ∃ h' s', insertLastAll h s xs = some (h', s') ∧ listRep h' s' (ys ++ xs) := by
  intro xs
  induction xs with
  | nil =>
    intro h s ys hr _ _ _
    exact ⟨h, s, rfl, by simpa using hr⟩
  | cons x xs' ih =>
    intro h s ys hr hdet hfresh hnd
    obtain ⟨h1, s1, heq1, hrep1, hframe1⟩ :=
      insertLast_rep h s ys x hr (hdet x (by simp)).1 (hdet x (by simp)).2
        (hfresh x (by simp))
    have hdet' : ∀ z ∈ xs', (h1 z).prev = none ∧ (h1 z).next = none := by
      intro z hz
      have hzys : z ∉ ys := hfresh z (by simp [hz])
      have hzx : z ≠ x := fun e => (List.nodup_cons.mp hnd).1 (e ▸ hz)
      rw [hframe1 z hzys hzx]
      exact hdet z (by simp [hz])
    have hfresh' : ∀ z ∈ xs', z ∉ ys ++ [x] := by
      intro z hz hm
      rcases List.mem_append.mp hm with hm1 | hm1
      · exact hfresh z (by simp [hz]) hm1
      · exact (List.nodup_cons.mp hnd).1 ((by simpa using hm1 : z = x) ▸ hz)
    obtain ⟨h2, s2, heq2, hrep2⟩ :=
      ih h1 s1 (ys ++ [x]) hrep1 hdet' hfresh' (List.nodup_cons.mp hnd).2
    refine ⟨h2, s2, ?_, by simpa using hrep2⟩
    rw [insertLastAll_cons]
    simp only [heq1]
    exact heq2

@[simp]
theorem eqLoop_none_none (h : Heap) (f : Nat) : eqLoop h f none none = true := by
  cases f <;> rfl

@[simp]
theorem eqLoop_none_some (h : Heap) (f : Nat) (b : Nat) :
    eqLoop h f none (some b) = false := by
  cases f <;> rfl

@[simp]
theorem eqLoop_some_none (h : Heap) (f : Nat) (a : Nat) :
    eqLoop h f (some a) none = false := by
  cases f <;> rfl

theorem eqLoop_succ (h : Heap) (f : Nat) (a b : Nat) :
    eqLoop h (f + 1) (some a) (some b) =
      (((h a).val == (h b).val) && eqLoop h f ((h a).next) ((h b).next)) := rfl

@[simp]
theorem cmpLoop_none_none (h : Heap) (f : Nat) :
    cmpLoop h f none none = Ordering.eq := by
  cases f <;> rfl

@[simp]
theorem cmpLoop_none_some (h : Heap) (f : Nat) (b : Nat) :
    cmpLoop h f none (some b) = Ordering.lt := by
  cases f <;> rfl

@[simp]
theorem cmpLoop_some_none (h : Heap) (f : Nat) (a : Nat) :
    cmpLoop h f (some a) none = Ordering.gt := by
  cases f <;> rfl

theorem cmpLoop_succ (h : Heap) (f : Nat) (a b : Nat) :
    cmpLoop h (f + 1) (some a) (some b) =
      (match compare (h a).val (h b).val with
       | Ordering.eq => cmpLoop h f ((h a).next) ((h b).next)
       | o => o) := rfl

theorem eqLoop_spec (h : Heap) :
    ∀ (xs ys : List Nat) (pr1 pr2 : Option Nat) (fuel : Nat),
      xs.length ≤ fuel →
      chainB h pr1 xs none = true → chainB h pr2 ys none = true →
      eqLoop h fuel (headOr xs none) (headOr ys none) =
        decide (xs.map (fun i => (h i).val) = ys.map (fun i => (h i).val)) := by
  intro xs
  induction xs with
  | nil =>
    intro ys pr1 pr2 fuel _ _ _
    cases ys <;> simp
  | cons x xs' ih =>
    intro ys pr1 pr2 fuel hf hch1 hch2
    cases fuel with
    | zero => simp at hf
    | succ f =>
      cases ys with
      | nil => simp
      | cons y ys' =>
        rw [chainB_cons] at hch1 hch2
        rw [headOr_cons, headOr_cons, eqLoop_succ, hch1.2.1, hch2.2.1,
          ih ys' (some x) (some y) f (by simpa using hf) hch1.2.2 hch2.2.2]
        by_cases hv : (h x).val = (h y).val <;> simp [hv]

theorem cmpLoop_spec (h : Heap) :
    ∀ (xs ys : List Nat) (pr1 pr2 : Option Nat) (fuel : Nat),
      xs.length ≤ fuel →
      chainB h pr1 xs none = true → chainB h pr2 ys none = true →
      cmpLoop h fuel (headOr xs none) (headOr ys none) =
        lexRule (xs.map (fun i => (h i).val)) (ys.map (fun i => (h i).val)) := by
  intro xs
  induction xs with
  | nil =>
    intro ys pr1 pr2 fuel _ _ _
    cases ys <;> simp [lexRule]
  | cons x xs' ih =>
    intro ys pr1 pr2 fuel hf hch1 hch2
    cases fuel with
    | zero => simp at hf
    | succ f =>
      cases ys with
      | nil => simp [lexRule]
      | cons y ys' =>
        rw [chainB_cons] at hch1 hch2
        rw [headOr_cons, headOr_cons, cmpLoop_succ, hch1.2.1, hch2.2.1]
        show (match compare (h x).val (h y).val with
              | Ordering.eq => cmpLoop h f (headOr xs' none) (headOr ys' none)
              | o => o) = _
        rw [List.map_cons, List.map_cons]
        show _ = (match compare (h x).val (h y).val with
                  | Ordering.eq => lexRule (xs'.map fun i => (h i).val)
                      (ys'.map fun i => (h i).val)
                  | o => o)
        cases compare (h x).val (h y).val with
        | eq => exact ih ys' (some x) (some y) f (by simpa using hf) hch1.2.2 hch2.2.2
        | lt => rfl
        | gt => rfl

theorem lexRule_append_lt (xs : List Int) (r : List Int) (hr : r ≠ []) :
    lexRule xs (xs ++ r) = Ordering.lt := by
  induction xs with
  | nil =>
    cases r with
    | nil => exact absurd rfl hr
    | cons a r' => rfl
  | cons a as ih =>
    show (match compare a a with
          | Ordering.eq => lexRule as (as ++ r)
          | o => o) = _
    rw [compare_eq_iff_eq.mpr rfl]
    exact ih

/-- C1: the spec claims the heterogeneous move-constructor walks the source
from head to end, removing and re-inserting each element at the tail, so the
new list traverses e1..en and the source ends empty.  On the two-element
source [0, 1] the constructor's range-for loop advances its iterator only
AFTER the splice, reading node 0's next handle from the post-splice heap
(null, since 0 is now the tail of the new list), so the loop stops after one
element: the new list holds only [0] and the source still holds one element
(length 1, head = last = node 1).  The sibling operator+= / operator+ loops
advance the iterator before splicing, so the spec describes the evident
intent and the constructor is the slip. -/
theorem C1_heteroMoveConstruct_bug :
    listRep hPair sPair [0, 1] ∧
    (heteroMoveConstruct 5 hPair sPair).map
        (fun r => (r.2.1, r.2.2, traverseF r.1 5 (r.2.1).head)) =
      some ({ head := some 0, last := some 0, length := 1 },
            { head := some 1, last := some 1, length := 1 }, [0]) := by
  constructor
  · exact ⟨rfl, rfl, by decide, rfl, by decide⟩
  · rfl

/-- C9: Clear resets head and last to null and the tracked length to zero, so
IsEmpty is true and GetLength is zero regardless of prior contents, and it
performs no heap writes: every element's prev/next link handles are left
exactly as they were. -/
theorem C9_clear (h : Heap) (s : LState) :
    (clear h s).1 = h ∧
    (clear h s).2.head = none ∧ (clear h s).2.last = none ∧
    isEmpty (clear h s).2 = true ∧ getLength (clear h s).2 = 0 ∧
    ∀ j, ((clear h s).1 j).prev = (h j).prev ∧ ((clear h s).1 j).next = (h j).next :=
  ⟨rfl, rfl, rfl, rfl, rfl, fun j => ⟨rfl, rfl⟩⟩

/-- C10: every insertion entry point (InsertPrev, InsertNext, InsertHead,
InsertLast, and their cross-list overloads), whenever it completes, returns
a cursor designating exactly the inserted node newNode. -/
theorem C10_insert_returns (h : Heap) (s other : LState) (cur : Option Nat)
    (nw : Nat) :
    (∀ h' s' r, insertPrev h s cur (some nw) = some (h', s', r) → r = nw) ∧
    (∀ h' s' r, insertNext h s cur (some nw) = some (h', s', r) → r = nw) ∧
    (∀ h' s' r, insertHead h s (some nw) = some (h', s', r) → r = nw) ∧
    (∀ h' s' r, insertLast h s (some nw) = some (h', s', r) → r = nw) ∧
    (∀ h' s' o' r, insertPrevFrom h s other cur (some nw) = some (h', s', o', r) →
      r = nw) ∧
    (∀ h' s' o' r, insertNextFrom h s other cur (some nw) = some (h', s', o', r) →
      r = nw) ∧
    (∀ h' s' o' r, insertHeadFrom h s other (some nw) = some (h', s', o', r) →
      r = nw) ∧
    (∀ h' s' o' r, insertLastFrom h s other (some nw) = some (h', s', o', r) →
      r = nw) := by
  have hp : ∀ (h0 : Heap) (s0 : LState) (cur0 : Option Nat) (h' : Heap)
      (s' : LState) (r : Nat),
      insertPrev h0 s0 cur0 (some nw) = some (h', s', r) → r = nw := by
    intro h0 s0 cur0 h' s' r he
    simp only [insertPrev] at he
    split at he
    · exact (congrArg (fun t => t.2.2) (Option.some.inj he)).symm
    · cases cur0 with
      | none => exact Option.noConfusion he
      | some c => exact (congrArg (fun t => t.2.2) (Option.some.inj he)).symm
  have hn : ∀ (h0 : Heap) (s0 : LState) (cur0 : Option Nat) (h' : Heap)
      (s' : LState) (r : Nat),
      insertNext h0 s0 cur0 (some nw) = some (h', s', r) → r = nw := by
    intro h0 s0 cur0 h' s' r he
    simp only [insertNext] at he
    split at he
    · exact (congrArg (fun t => t.2.2) (Option.some.inj he)).symm
    · cases cur0 with
      | none => exact Option.noConfusion he
      | some c => exact (congrArg (fun t => t.2.2) (Option.some.inj he)).symm
  refine ⟨fun h' s' r => hp h s cur h' s' r,
    fun h' s' r => hn h s cur h' s' r,
    fun h' s' r => hp h s s.head h' s' r,
    fun h' s' r => hn h s s.last h' s' r, ?_, ?_, ?_, ?_⟩
  · intro h' s' o' r he
    simp only [insertPrevFrom] at he
    cases hrm : remove h other (some nw) with
    | none => rw [hrm] at he; exact Option.noConfusion he
    | some p =>
      obtain ⟨h1, o1⟩ := p
      rw [hrm] at he
      have he2 : (match insertPrev h1 s cur (some nw) with
          | none => (none : Option (Heap × LState × LState × Nat))
          | some (h2, s1, r) => some (h2, s1, o1, r)) = some (h', s', o', r) := he
      cases hin : insertPrev h1 s cur (some nw) with
      | none =>
        rw [hin] at he2
        exact Option.noConfusion he2
      | some q =>
        obtain ⟨h2, s2, r2⟩ := q
        rw [hin] at he2
        have hr2 : r2 = r := congrArg (fun t => t.2.2.2) (Option.some.inj he2)
        rw [← hr2]
        exact hp h1 s cur h2 s2 r2 hin
  · intro h' s' o' r he
    simp only [insertNextFrom] at he
    cases hrm : remove h other (some nw) with
    | none => rw [hrm] at he; exact Option.noConfusion he
    | some p =>
      obtain ⟨h1, o1⟩ := p
      rw [hrm] at he
      have he2 : (match insertNext h1 s cur (some nw) with
          | none => (none : Option (Heap × LState × LState × Nat))
          | some (h2, s1, r) => some (h2, s1, o1, r)) = some (h', s', o', r) := he
      cases hin : insertNext h1 s cur (some nw) with
      | none =>
        rw [hin] at he2
        exact Option.noConfusion he2
      | some q =>
        obtain ⟨h2, s2, r2⟩ := q
        rw [hin] at he2
        have hr2 : r2 = r := congrArg (fun t => t.2.2.2) (Option.some.inj he2)
        rw [← hr2]
        exact hn h1 s cur h2 s2 r2 hin
  · intro h' s' o' r he
    simp only [insertHeadFrom, insertHead] at he
    cases hrm : remove h other (some nw) with
    | none => rw [hrm] at he; exact Option.noConfusion he
    | some p =>
      obtain ⟨h1, o1⟩ := p
      rw [hrm] at he
      have he2 : (match insertPrev h1 s s.head (some nw) with
          | none => (none : Option (Heap × LState × LState × Nat))
          | some (h2, s1, r) => some (h2, s1, o1, r)) = some (h', s', o', r) := he
      cases hin : insertPrev h1 s s.head (some nw) with
      | none =>
        rw [hin] at he2
        exact Option.noConfusion he2
      | some q =>
        obtain ⟨h2, s2, r2⟩ := q
        rw [hin] at he2
        have hr2 : r2 = r := congrArg (fun t => t.2.2.2) (Option.some.inj he2)
        rw [← hr2]
        exact hp h1 s s.head h2 s2 r2 hin
  · intro h' s' o' r he
    simp only [insertLastFrom, insertLast] at he
    cases hrm : remove h other (some nw) with
    | none => rw [hrm] at he; exact Option.noConfusion he
    | some p =>
      obtain ⟨h1, o1⟩ := p
      rw [hrm] at he
      have he2 : (match insertNext h1 s s.last (some nw) with
          | none => (none : Option (Heap × LState × LState × Nat))
          | some (h2, s1, r) => some (h2, s1, o1, r)) = some (h', s', o', r) := he
      cases hin : insertNext h1 s s.last (some nw) with
      | none =>
        rw [hin] at he2
        exact Option.noConfusion he2
      | some q =>
        obtain ⟨h2, s2, r2⟩ := q
        rw [hin] at he2
        have hr2 : r2 = r := congrArg (fun t => t.2.2.2) (Option.some.inj he2)
        rw [← hr2]
        exact hn h1 s s.last h2 s2 r2 hin

/-- Witness for C10 at a concrete input: inserting node 7 into the empty list
returns cursor 7. -/
theorem C10_insert_returns_witness :
    insertPrev hDetached sNil none (some 7) =
      some (detach hDetached 7, { head := some 7, last := some 7, length := 1 }, 7) ∧
    (7 : Nat) = 7 :=
  ⟨rfl, (C10_insert_returns hDetached sNil sNil none 7).1
    (detach hDetached 7) { head := some 7, last := some 7, length := 1 } 7 rfl⟩

/-- C4: for a list representing as ++ c :: bs, Remove(c) yields a list whose
traversal is as ++ bs (so never yields c), decrements the tracked length by
exactly one, replaces the head by c's former successor when c was the head,
replaces the last by c's former predecessor when c was the last, and leaves
head and last both null when c was the sole element. -/
theorem C4_remove (h : Heap) (s : LState) (as bs : List Nat) (c : Nat)
    (hr : listRep h s (as ++ c :: bs)) :
    ∃ h' s', remove h s (some c) = some (h', s') ∧
      c ∉ traverseF h' s'.length s'.head ∧
      traverseF h' s'.length s'.head = as ++ bs ∧
      s'.length + 1 = s.length ∧
      (s.head = some c → s'.head = (h c).next) ∧
      (s.last = some c → s'.last = (h c).prev) ∧
      (as = [] → bs = [] → s'.head = none ∧ s'.last = none) := by
  obtain ⟨heq, hrep⟩ := remove_rep h s as bs c hr
  have hbd := chain_boundary h as bs c none none hr.2.2.1
  have ht := rep_traverseF _ _ _ _ hrep (le_of_eq hrep.2.2.2.1.symm)
  have hcn : c ∉ as ++ bs := by
    have hnd := hr.2.2.2.2
    rw [List.nodup_middle, List.nodup_cons] at hnd
    exact hnd.1
  refine ⟨detach h c, _, heq, ?_, ht, ?_, ?_, ?_, ?_⟩
  · rw [ht]
    exact hcn
  · show s.length - 1 + 1 = s.length
    have := hr.2.2.2.1
    simp at this
    omega
  · intro hhc
    show (if s.head = some c then (h c).next else s.head) = (h c).next
    rw [if_pos hhc]
  · intro hlc
    show (if s.last = some c then (h c).prev else s.last) = (h c).prev
    rw [if_pos hlc]
  · intro ha hb
    subst ha
    subst hb
    constructor
    · show (if s.head = some c then (h c).next else s.head) = none
      rw [if_pos (by simpa using hr.1), hbd.2]
      rfl
    · show (if s.last = some c then (h c).prev else s.last) = none
      rw [if_pos (by simpa using hr.2.1), hbd.1]
      rfl

/-- Witness for C4: removing the sole element 0 of a one-element list. -/
theorem C4_remove_witness :
    listRep hDetached { head := some 0, last := some 0, length := 1 }
      ([] ++ 0 :: []) ∧
    (∃ h' s', remove hDetached { head := some 0, last := some 0, length := 1 }
        (some 0) = some (h', s') ∧
      0 ∉ traverseF h' s'.length s'.head ∧
      traverseF h' s'.length s'.head = [] ++ [] ∧
      s'.length + 1 = 1 ∧
      (LState.head { head := some 0, last := some 0, length := 1 } = some 0 →
        s'.head = (hDetached 0).next) ∧
      (LState.last { head := some 0, last := some 0, length := 1 } = some 0 →
        s'.last = (hDetached 0).prev) ∧
      (([] : List Nat) = [] → ([] : List Nat) = [] →
        s'.head = none ∧ s'.last = none)) := by
  have hrep : listRep hDetached { head := some 0, last := some 0, length := 1 }
      ([] ++ 0 :: []) := ⟨rfl, rfl, by decide, rfl, by decide⟩
  exact ⟨hrep, C4_remove hDetached _ [] [] 0 hrep⟩

/-- C3: the cross-list splice L2.InsertNext(pos, X, L1), with X attached in L1
and pos attached in L2 (disjoint lists), removes X from L1 — L1's tracked
length drops by exactly one and its traversal is its old traversal with X
gone — and inserts X into L2 immediately after pos — L2's tracked length grows
by exactly one and its traversal carries X right after pos. -/
theorem C3_splice (h : Heap) (s2 s1 : LState) (cs ds as bs : List Nat) (c x : Nat)
    (hr2 : listRep h s2 (cs ++ c :: ds)) (hr1 : listRep h s1 (as ++ x :: bs))
    (hdisj : ∀ j ∈ as ++ x :: bs, j ∉ cs ++ c :: ds) :
    ∃ h' s2' s1', insertNextFrom h s2 s1 (some c) (some x) =
        some (h', s2', s1', x) ∧
      s1'.length + 1 = s1.length ∧
      traverseF h' s1'.length s1'.head = as ++ bs ∧
      x ∉ traverseF h' s1'.length s1'.head ∧
      s2'.length = s2.length + 1 ∧
      traverseF h' s2'.length s2'.head = cs ++ c :: x :: ds := by
  obtain ⟨h', s2', s1', heq, hrep2, hrep1⟩ :=
    insertNextFrom_rep h s2 s1 cs ds as bs c x hr2 hr1 hdisj
  have ht1 := rep_traverseF _ _ _ _ hrep1 (le_of_eq hrep1.2.2.2.1.symm)
  have ht2 := rep_traverseF _ _ _ _ hrep2 (le_of_eq hrep2.2.2.2.1.symm)
  have hxn : x ∉ as ++ bs := by
    have hnd := hr1.2.2.2.2
    rw [List.nodup_middle, List.nodup_cons] at hnd
    exact hnd.1
  refine ⟨h', s2', s1', heq, ?_, ht1, by rw [ht1]; exact hxn, ?_, ht2⟩
  · have e1 := hrep1.2.2.2.1
    have e2 := hr1.2.2.2.1
    simp at e1 e2
    omega
  · have e1 := hrep2.2.2.2.1
    have e2 := hr2.2.2.2.1
    simp at e1 e2
    omega

/-- Witness for C3: splicing the sole element 0 of L1 after the sole element 1
of L2. -/
theorem C3_splice_witness :
    listRep hDetached { head := some 1, last := some 1, length := 1 }
      ([] ++ 1 :: []) ∧
    listRep hDetached { head := some 0, last := some 0, length := 1 }
      ([] ++ 0 :: []) ∧
    (∃ h' s2' s1',
      insertNextFrom hDetached { head := some 1, last := some 1, length := 1 }
          { head := some 0, last := some 0, length := 1 } (some 1) (some 0) =
        some (h', s2', s1', 0) ∧
      s1'.length + 1 = 1 ∧
      traverseF h' s1'.length s1'.head = [] ++ [] ∧
      0 ∉ traverseF h' s1'.length s1'.head ∧
      s2'.length = 1 + 1 ∧
      traverseF h' s2'.length s2'.head = [] ++ 1 :: 0 :: []) := by
  have h2 : listRep hDetached { head := some 1, last := some 1, length := 1 }
      ([] ++ 1 :: []) := ⟨rfl, rfl, by decide, rfl, by decide⟩
  have h1 : listRep hDetached { head := some 0, last := some 0, length := 1 }
      ([] ++ 0 :: []) := ⟨rfl, rfl, by decide, rfl, by decide⟩
  exact ⟨h2, h1, C3_splice hDetached _ _ [] [] [] [] 1 0 h2 h1 (by decide)⟩

/-- C5: list1 + list2 over disjoint element sets drains list1 then list2 into
a fresh list whose tracked length is the sum of the operands' lengths and
whose forward traversal is list1's former traversal followed by list2's, and
leaves both operands empty; the result's length tracking is enabled iff either
operand's is (the `Enable || Enable_` result parameter). -/
theorem C5_plus (fuel : Nat) (h : Heap) (lhs rhs : LState) (xs ys : List Nat)
    (hf1 : xs.length ≤ fuel) (hf2 : ys.length ≤ fuel)
    (hrl : listRep h lhs xs) (hrr : listRep h rhs ys)
    (hdisj : ∀ j ∈ xs, j ∉ ys) :
    (∃ h' tmp lhs' rhs', plusOp fuel h lhs rhs = some (h', tmp, lhs', rhs') ∧
      tmp.length = lhs.length + rhs.length ∧
      traverseF h' tmp.length tmp.head = xs ++ ys ∧
      isEmpty lhs' = true ∧ getLength lhs' = 0 ∧
      isEmpty rhs' = true ∧ getLength rhs' = 0) ∧
    (∀ e1 e2 : Bool, plusHasLength e1 e2 = true ↔ e1 = true ∨ e2 = true) := by
  constructor
  · obtain ⟨h', tmp, lhs', rhs', heq, hrep, hl, hr'⟩ :=
      plusOp_rep fuel h lhs rhs xs ys hf1 hf2 hrl hrr hdisj
    subst hl
    subst hr'
    refine ⟨h', tmp, _, _, heq, ?_,
      rep_traverseF _ _ _ _ hrep (le_of_eq hrep.2.2.2.1.symm),
      rfl, rfl, rfl, rfl⟩
    have e1 := hrep.2.2.2.1
    have e2 := hrl.2.2.2.1
    have e3 := hrr.2.2.2.1
    simp at e1
    omega
  · intro e1 e2
    cases e1 <;> cases e2 <;> simp [plusHasLength]

/-- Witness for C5: [0] + [1] at fuel 2. -/
theorem C5_plus_witness :
    listRep hDetached { head := some 0, last := some 0, length := 1 } [0] ∧
    listRep hDetached { head := some 1, last := some 1, length := 1 } [1] ∧
    ((∃ h' tmp lhs' rhs',
      plusOp 2 hDetached { head := some 0, last := some 0, length := 1 }
          { head := some 1, last := some 1, length := 1 } =
        some (h', tmp, lhs', rhs') ∧
      tmp.length = 1 + 1 ∧
      traverseF h' tmp.length tmp.head = [0] ++ [1] ∧
      isEmpty lhs' = true ∧ getLength lhs' = 0 ∧
      isEmpty rhs' = true ∧ getLength rhs' = 0) ∧
    (∀ e1 e2 : Bool, plusHasLength e1 e2 = true ↔ e1 = true ∨ e2 = true)) := by
  have h1 : listRep hDetached { head := some 0, last := some 0, length := 1 } [0] :=
    ⟨rfl, rfl, by decide, rfl, by decide⟩
  have h2 : listRep hDetached { head := some 1, last := some 1, length := 1 } [1] :=
    ⟨rfl, rfl, by decide, rfl, by decide⟩
  exact ⟨h1, h2, C5_plus 2 hDetached _ _ [0] [1] (by decide) (by decide) h1 h2
    (by decide)⟩

/-- C6: inserting n distinct, initially detached elements with InsertLast into
an initially empty tracked list gives GetLength = n, forward traversal in
insertion order, and reverse traversal in exactly the reverse order. -/
theorem C6_insertLast_order (h : Heap) (xs : List Nat)
    (hdet : ∀ x ∈ xs, (h x).prev = none ∧ (h x).next = none)
    (hnd : xs.Nodup) :
    ∃ h' s', insertLastAll h { head := none, last := none, length := 0 } xs =
        some (h', s') ∧
      getLength s' = xs.length ∧
      traverseF h' s'.length s'.head = xs ∧
      traverseR h' s'.length s'.last = xs.reverse := by
  obtain ⟨h', s', heq, hrep⟩ := insertLastAll_rep xs h _ [] (rep_empty h) hdet
    (fun x _ hm => absurd hm (List.not_mem_nil x)) hnd
  rw [List.nil_append] at hrep
  exact ⟨h', s', heq, hrep.2.2.2.1,
    rep_traverseF _ _ _ _ hrep (le_of_eq hrep.2.2.2.1.symm),
    rep_traverseR _ _ _ _ hrep (le_of_eq hrep.2.2.2.1.symm)⟩

/-- Witness for C6: inserting 0, 1, 2 in order. -/
theorem C6_insertLast_order_witness :
    (∀ x ∈ [0, 1, 2], (hDetached x).prev = none ∧ (hDetached x).next = none) ∧
    (∃ h' s', insertLastAll hDetached
        { head := none, last := none, length := 0 } [0, 1, 2] = some (h', s') ∧
      getLength s' = ([0, 1, 2] : List Nat).length ∧
      traverseF h' s'.length s'.head = [0, 1, 2] ∧
      traverseR h' s'.length s'.last = ([0, 1, 2] : List Nat).reverse) :=
  ⟨by decide, C6_insertLast_order hDetached [0, 1, 2] (by decide) (by decide)⟩

/-- C8: operator== is true iff both traversals carry elementwise-equal value
sequences (hence equal lengths), and operator<=> is the lexicographic
comparison of the two value sequences in forward order; in particular a list
whose value sequence is a proper prefix of the other's orders below it. -/
theorem C8_compare (h : Heap) (s1 s2 : LState) (xs ys : List Nat) (fuel : Nat)
    (hr1 : listRep h s1 xs) (hr2 : listRep h s2 ys) (hf : xs.length ≤ fuel) :
    (listEqual fuel h s1 s2 = true ↔
      xs.map (fun i => (h i).val) = ys.map (fun i => (h i).val)) ∧
    listCompare fuel h s1 s2 =
      lexRule (xs.map (fun i => (h i).val)) (ys.map (fun i => (h i).val)) ∧
    (∀ r, r ≠ [] →
      ys.map (fun i => (h i).val) = xs.map (fun i => (h i).val) ++ r →
      listCompare fuel h s1 s2 = Ordering.lt) := by
  have he : listEqual fuel h s1 s2 =
      decide (xs.map (fun i => (h i).val) = ys.map (fun i => (h i).val)) := by
    unfold listEqual
    rw [hr1.1, hr2.1]
    exact eqLoop_spec h xs ys none none fuel hf hr1.2.2.1 hr2.2.2.1
  have hc : listCompare fuel h s1 s2 =
      lexRule (xs.map (fun i => (h i).val)) (ys.map (fun i => (h i).val)) := by
    unfold listCompare
    rw [hr1.1, hr2.1]
    exact cmpLoop_spec h xs ys none none fuel hf hr1.2.2.1 hr2.2.2.1
  refine ⟨?_, hc, ?_⟩
  · rw [he]
    simp
  · intro r hrne hpre
    rw [hc, hpre]
    exact lexRule_append_lt _ r hrne

/-- Witness for C8: comparing the singleton lists [0] (value 0) and [1]
(value 1). -/
theorem C8_compare_witness :
    listRep hDetached { head := some 0, last := some 0, length := 1 } [0] ∧
    listRep hDetached { head := some 1, last := some 1, length := 1 } [1] ∧
    ((listEqual 1 hDetached { head := some 0, last := some 0, length := 1 }
        { head := some 1, last := some 1, length := 1 } = true ↔
      ([0] : List Nat).map (fun i => (hDetached i).val) =
        ([1] : List Nat).map (fun i => (hDetached i).val)) ∧
    listCompare 1 hDetached { head := some 0, last := some 0, length := 1 }
        { head := some 1, last := some 1, length := 1 } =
      lexRule (([0] : List Nat).map (fun i => (hDetached i).val))
        (([1] : List Nat).map (fun i => (hDetached i).val)) ∧
    (∀ r, r ≠ [] →
      ([1] : List Nat).map (fun i => (hDetached i).val) =
        ([0] : List Nat).map (fun i => (hDetached i).val) ++ r →
      listCompare 1 hDetached { head := some 0, last := some 0, length := 1 }
        { head := some 1, last := some 1, length := 1 } = Ordering.lt)) := by
  have h1 : listRep hDetached { head := some 0, last := some 0, length := 1 } [0] :=
    ⟨rfl, rfl, by decide, rfl, by decide⟩
  have h2 : listRep hDetached { head := some 1, last := some 1, length := 1 } [1] :=
    ⟨rfl, rfl, by decide, rfl, by decide⟩
  exact ⟨h1, h2, C8_compare hDetached _ _ [0] [1] 1 h1 h2 (by decide)⟩

/-- C2 counterexample: node 0 is the head of the two-element list M = [0, 1]
(object sPair in heap hPair).  Inserting it into an empty list L by the
same-list overload InsertPrev(cur, x) detaches it at the node level only: the
overload never sees M's object, so afterwards M's head still designates 0,
the traversal from M's head still yields 0, and M's tracked length is still 2.
The claim's consequences at this input (0 unreachable from M's head, M's
head/last no longer designating 0, M's length decremented to 1) are false. -/
theorem C2_counterexample :
    listRep hPair sPair [0, 1] ∧
    (insertPrev hPair sNil none (some 0)).map
        (fun r => (r.2.1, r.2.2, traverseF r.1 5 sPair.head)) =
      some ({ head := some 0, last := some 0, length := 1 }, 0, [0]) ∧
    ¬((0 : Nat) ∉ ([0] : List Nat) ∧ sPair.head ≠ some 0 ∧
      sPair.length = 2 - 1) := by
  refine ⟨⟨rfl, rfl, by decide, rfl, by decide⟩, rfl, ?_⟩
  intro hcl
  exact hcl.1 (by decide)

/-- C2 amended: the same-list overloads InsertPrev(cur, x) / InsertNext(cur, x)
detach x from its current list M at the node level — x's former neighbours are
relinked around it — but update none of M's bookkeeping (the operation never
receives M): M's head, last and tracked length fields keep their old values,
so M's length is NOT decremented (it stays one above the size of M's remaining
chain), and when x was not M's head, x is no longer reachable from M's head.
Stated for x interior (non-head) in M, a target list L disjoint from M, and a
cursor that is L's member when L is non-empty. -/
theorem C2_amended (h : Heap) (m l : LState) (a x : Nat) (as bs ys : List Nat)
    (cur : Option Nat)
    (hrm : listRep h m ((a :: as) ++ x :: bs))
    (hrl : listRep h l ys)
    (hdisj : ∀ j ∈ (a :: as) ++ x :: bs, j ∉ ys)
    (hcur : ys = [] ∨ (∃ c cs ds, cur = some c ∧ ys = cs ++ c :: ds)) :
    (∃ h' l' r, insertPrev h l cur (some x) = some (h', l', r) ∧
      traverseF h' m.length m.head = (a :: as) ++ bs ∧
      x ∉ (a :: as) ++ bs ∧
      m.length = ((a :: as) ++ bs).length + 1) ∧
    (∃ h' l' r, insertNext h l cur (some x) = some (h', l', r) ∧
      traverseF h' m.length m.head = (a :: as) ++ bs ∧
      x ∉ (a :: as) ++ bs ∧
      m.length = ((a :: as) ++ bs).length + 1) := by
  have hndm := hrm.2.2.2.2
  have hxnot : x ∉ (a :: as) ++ bs := by
    have hnd := hndm
    rw [List.nodup_middle, List.nodup_cons] at hnd
    exact hnd.1
  have hlen : m.length = ((a :: as) ++ bs).length + 1 := by
    have := hrm.2.2.2.1
    simp at this ⊢
    omega
  have hmh : m.head = some a := by simpa using hrm.1
  have hch1 : chainB (detach h x) none ((a :: as) ++ bs) none = true :=
    detach_chain x bs (a :: as) none h hndm (fun q e => Option.noConfusion e)
      hrm.2.2.1
  have hlenle : ((a :: as) ++ bs).length ≤ m.length := by omega
  have hsubM : ∀ j, j ∈ (a :: as) ++ bs → j ∈ (a :: as) ++ x :: bs := by
    intro j hj
    simp only [List.cons_append, List.mem_cons, List.mem_append] at hj ⊢
    tauto
  rcases hcur with hys | ⟨c, cs, ds, hce, hys⟩
  · subst hys
    have hle : isEmpty l = true := by
      simp [isEmpty, hrl.1, hrl.2.1, headOr, lastOr]
    have htrav : traverseF (detach h x) m.length m.head = (a :: as) ++ bs := by
      rw [hmh]
      exact traverseF_chain (detach h x) ((a :: as) ++ bs) none m.length
        hlenle hch1
    constructor
    · refine ⟨detach h x, { head := some x, last := some x, length := l.length + 1 },
        x, ?_, htrav, hxnot, hlen⟩
      simp only [insertPrev]
      rw [hle]
      simp
    · refine ⟨detach h x, { head := some x, last := some x, length := l.length + 1 },
        x, ?_, htrav, hxnot, hlen⟩
      simp only [insertNext]
      rw [hle]
      simp
  · subst hce
    subst hys
    have hlne : isEmpty l = false := rep_not_empty h l cs ds c hrl
    have hcys : c ∈ cs ++ c :: ds := by simp
    have hcnotM : c ∉ (a :: as) ++ x :: bs := fun hm => hdisj c hm hcys
    have hcx : c ≠ x := fun e => hcnotM (by simp [e])
    have hcnot : c ∉ (a :: as) ++ bs := fun hm => hdisj c (hsubM c hm) hcys
    have hcprev : ((detach h x) c).prev = (h c).prev := by
      refine detach_prev_other h x c hcx ?_
      intro he
      have := chain_next_mem h (a :: as) bs x none none hrm.2.2.1 rfl c he
      exact hcnotM (by simp [this])
    have hcnext : ((detach h x) c).next = (h c).next := by
      refine detach_next_other h x c hcx ?_
      intro he
      have := chain_prev_mem h (a :: as) bs x none none hrm.2.2.1 rfl c he
      refine hcnotM ?_
      simp at this ⊢
      tauto
    constructor
    · have hch2 : chainB (attachPrev (detach h x) x c) none ((a :: as) ++ bs)
          none = true := by
        refine attachPrev_chain_frame (detach h x) x c ((a :: as) ++ bs)
          none none hxnot hcnot ?_ hch1
        intro j hj he
        rw [hcprev] at he
        have hjcs := chain_prev_mem h cs ds c none none hrl.2.2.1 rfl j he
        exact hdisj j (hsubM j hj) (by simp [hjcs])
      refine ⟨attachPrev (detach h x) x c,
        { head := if l.head = some c then some x else l.head, last := l.last,
          length := l.length + 1 }, x, ?_, ?_, hxnot, hlen⟩
      · simp only [insertPrev]
        rw [hlne]
        simp
      · rw [hmh]
        exact traverseF_chain _ ((a :: as) ++ bs) none m.length hlenle hch2
    · have hch2 : chainB (attachNext (detach h x) x c) none ((a :: as) ++ bs)
          none = true := by
        refine attachNext_chain_frame (detach h x) x c ((a :: as) ++ bs)
          none none hxnot hcnot ?_ hch1
        intro j hj he
        rw [hcnext] at he
        have hjds := chain_next_mem h cs ds c none none hrl.2.2.1 rfl j he
        exact hdisj j (hsubM j hj) (by simp [hjds])
      refine ⟨attachNext (detach h x) x c,
        { head := l.head, last := if l.last = some c then some x else l.last,
          length := l.length + 1 }, x, ?_, ?_, hxnot, hlen⟩
      · simp only [insertNext]
        rw [hlne]
        simp
      · rw [hmh]
        exact traverseF_chain _ ((a :: as) ++ bs) none m.length hlenle hch2

/-- Witness for C2's amended statement: M = [2, 0] in heap hM2, x = 0 interior
(non-head), L empty. -/
theorem C2_amended_witness :
    listRep hM2 mM2 ((2 :: []) ++ 0 :: []) ∧
    ((∃ h' l' r, insertPrev hM2 sNil none (some 0) = some (h', l', r) ∧
      traverseF h' mM2.length mM2.head = (2 :: []) ++ [] ∧
      (0 : Nat) ∉ (2 :: []) ++ ([] : List Nat) ∧
      mM2.length = ((2 :: []) ++ ([] : List Nat)).length + 1) ∧
    (∃ h' l' r, insertNext hM2 sNil none (some 0) = some (h', l', r) ∧
      traverseF h' mM2.length mM2.head = (2 :: []) ++ [] ∧
      (0 : Nat) ∉ (2 :: []) ++ ([] : List Nat) ∧
      mM2.length = ((2 :: []) ++ ([] : List Nat)).length + 1)) := by
  have hm : listRep hM2 mM2 ((2 :: []) ++ 0 :: []) :=
    ⟨rfl, rfl, by decide, rfl, by decide⟩
  have hl : listRep hM2 sNil [] := ⟨rfl, rfl, rfl, rfl, by decide⟩
  exact ⟨hm, C2_amended hM2 mM2 sNil 2 0 [] [] [] none hm hl (by decide)
    (Or.inl rfl)⟩

/-- C7 counterexample: the spec sanctions the same-list insert of a node that
is already attached to this very list ("detach newNode from wherever it
currently is — any list, including this one"), yet that call breaks the
length invariant: on the invariant-satisfying list [0, 1] (object sPair),
InsertPrev(node 0, node 1) detaches 1, reattaches it before 0, and increments
the counter — afterwards the tracked length is 3 while only 2 elements are
reachable from the head. -/
theorem C7_counterexample :
    listRep hPair sPair [0, 1] ∧
    ∃ h' s' r, insertPrev hPair sPair (some 0) (some 1) = some (h', s', r) ∧
      ¬((traverseF h' s'.length s'.head).length = s'.length) := by
  refine ⟨⟨rfl, rfl, by decide, rfl, by decide⟩,
    attachPrev (detach hPair 1) 1 0,
    { head := some 1, last := some 1, length := 3 }, 1, rfl, ?_⟩
  decide

/-- C7 amended: every public list operation preserves the invariant (head null
iff last null; tracked length equal to the number of elements reachable from
head) PROVIDED a node inserted through the same-list overloads is detached
(null links) and not an element of the list, cross-list splices take the node
from its owning source list (disjoint from the target), and removals target a
member of the list.  The final conjunct spells out what the invariant `Inv`
guarantees. -/
theorem C7_invariant_preservation :
    (∀ (h : Heap) (s : LState) (as bs : List Nat) (c w : Nat),
      listRep h s (as ++ c :: bs) → (h w).prev = none → (h w).next = none →
      w ∉ as ++ c :: bs →
      ∃ h' s' r, insertPrev h s (some c) (some w) = some (h', s', r) ∧
        Inv h' s') ∧
    (∀ (h : Heap) (s : LState) (cur : Option Nat) (w : Nat),
      listRep h s [] → (h w).prev = none → (h w).next = none →
      ∃ h' s' r, insertPrev h s cur (some w) = some (h', s', r) ∧ Inv h' s') ∧
    (∀ (h : Heap) (s : LState) (as bs : List Nat) (c w : Nat),
      listRep h s (as ++ c :: bs) → (h w).prev = none → (h w).next = none →
      w ∉ as ++ c :: bs →
      ∃ h' s' r, insertNext h s (some c) (some w) = some (h', s', r) ∧
        Inv h' s') ∧
    (∀ (h : Heap) (s : LState) (cur : Option Nat) (w : Nat),
      listRep h s [] → (h w).prev = none → (h w).next = none →
      ∃ h' s' r, insertNext h s cur (some w) = some (h', s', r) ∧ Inv h' s') ∧
    (∀ (h : Heap) (s : LState) (ys : List Nat) (w : Nat),
      listRep h s ys → (h w).prev = none → (h w).next = none → w ∉ ys →
      ∃ h' s' r, insertHead h s (some w) = some (h', s', r) ∧ Inv h' s') ∧
    (∀ (h : Heap) (s : LState) (ys : List Nat) (w : Nat),
      listRep h s ys → (h w).prev = none → (h w).next = none → w ∉ ys →
      ∃ h' s' r, insertLast h s (some w) = some (h', s', r) ∧ Inv h' s') ∧
    (∀ (h : Heap) (s : LState) (as bs : List Nat) (c : Nat),
      listRep h s (as ++ c :: bs) →
      ∃ h' s', remove h s (some c) = some (h', s') ∧ Inv h' s') ∧
    (∀ (h : Heap) (s : LState) (c : Nat) (bs : List Nat),
      listRep h s (c :: bs) →
      ∃ h' s', removeHead h s = some (h', s') ∧ Inv h' s') ∧
    (∀ (h : Heap) (s : LState) (as : List Nat) (c : Nat),
      listRep h s (as ++ [c]) →
      ∃ h' s', removeLast h s = some (h', s') ∧ Inv h' s') ∧
    (∀ (h : Heap) (s2 s1 : LState) (cs ds as bs : List Nat) (c x : Nat),
      listRep h s2 (cs ++ c :: ds) → listRep h s1 (as ++ x :: bs) →
      (∀ j ∈ as ++ x :: bs, j ∉ cs ++ c :: ds) →
      ∃ h' s2' s1', insertNextFrom h s2 s1 (some c) (some x) =
        some (h', s2', s1', x) ∧ Inv h' s2' ∧ Inv h' s1') ∧
    (∀ (h : Heap) (s : LState), Inv h s →
      Inv (clear h s).1 (clear h s).2) ∧
    (∀ (h : Heap) (other : LState), Inv h other →
      Inv (moveConstruct h other).1 (moveConstruct h other).2.1 ∧
      Inv (moveConstruct h other).1 (moveConstruct h other).2.2) ∧
    (∀ (h : Heap) (s other : LState), Inv h other →
      Inv (moveAssign h s other).1 (moveAssign h s other).2.1 ∧
      Inv (moveAssign h s other).1 (moveAssign h s other).2.2) ∧
    (∀ (fuel : Nat) (h : Heap) (lhs rhs : LState) (xs ys : List Nat),
      xs.length ≤ fuel → ys.length ≤ fuel →
      listRep h lhs xs → listRep h rhs ys → (∀ j ∈ xs, j ∉ ys) →
      ∃ h' tmp lhs' rhs', plusOp fuel h lhs rhs = some (h', tmp, lhs', rhs') ∧
        Inv h' tmp ∧ Inv h' lhs' ∧ Inv h' rhs') ∧
    (∀ (h : Heap) (s : LState), Inv h s →
      (s.head = none ↔ s.last = none) ∧
      (traverseF h s.length s.head).length = s.length) := by
  refine ⟨?_, ?_, ?_, ?_, ?_, ?_, ?_, ?_, ?_, ?_, ?_, ?_, ?_, ?_, ?_⟩
  · intro h s as bs c w hr hwp hwn hw
    obtain ⟨heq, hrep⟩ := insertPrev_rep h s as bs c w hr hwp hwn hw
    exact ⟨_, _, w, heq, ⟨_, hrep⟩⟩
  · intro h s cur w hr hwp hwn
    obtain ⟨heq, hrep⟩ := insertPrev_empty h s cur w hr hwp hwn
    exact ⟨_, _, w, heq, ⟨_, hrep⟩⟩
  · intro h s as bs c w hr hwp hwn hw
    obtain ⟨heq, hrep⟩ := insertNext_rep h s as bs c w hr hwp hwn hw
    exact ⟨_, _, w, heq, ⟨_, hrep⟩⟩
  · intro h s cur w hr hwp hwn
    obtain ⟨heq, hrep⟩ := insertNext_empty h s cur w hr hwp hwn
    exact ⟨_, _, w, heq, ⟨_, hrep⟩⟩
  · intro h s ys w hr hwp hwn hw
    obtain ⟨h', s', heq, hrep, -⟩ := insertHead_rep h s ys w hr hwp hwn hw
    exact ⟨h', s', w, heq, ⟨_, hrep⟩⟩
  · intro h s ys w hr hwp hwn hw
    obtain ⟨h', s', heq, hrep, -⟩ := insertLast_rep h s ys w hr hwp hwn hw
    exact ⟨h', s', w, heq, ⟨_, hrep⟩⟩
  · intro h s as bs c hr
    obtain ⟨heq, hrep⟩ := remove_rep h s as bs c hr
    exact ⟨_, _, heq, ⟨_, hrep⟩⟩
  · intro h s c bs hr
    have hhc : s.head = some c := by simpa using hr.1
    obtain ⟨heq, hrep⟩ := remove_rep h s [] bs c hr
    refine ⟨_, _, ?_, ⟨_, hrep⟩⟩
    show remove h s s.head = _
    conv_lhs => rw [hhc]
    exact heq
  · intro h s as c hr
    have hlc : s.last = some c := by
      rw [hr.2.1, lastOr_append]
      simp [lastOr]
    obtain ⟨heq, hrep⟩ := remove_rep h s as [] c hr
    refine ⟨_, _, ?_, ⟨_, hrep⟩⟩
    show remove h s s.last = _
    conv_lhs => rw [hlc]
    exact heq
  · intro h s2 s1 cs ds as bs c x hr2 hr1 hdisj
    obtain ⟨h', s2', s1', heq, hrep2, hrep1⟩ :=
      insertNextFrom_rep h s2 s1 cs ds as bs c x hr2 hr1 hdisj
    exact ⟨h', s2', s1', heq, ⟨_, hrep2⟩, ⟨_, hrep1⟩⟩
  · intro h s _
    exact ⟨[], rep_empty h⟩
  · intro h other hinv
    obtain ⟨xs, hr⟩ := hinv
    exact ⟨⟨xs, hr.1, hr.2.1, hr.2.2.1, hr.2.2.2.1, hr.2.2.2.2⟩,
      ⟨[], rep_empty h⟩⟩
  · intro h s other hinv
    obtain ⟨xs, hr⟩ := hinv
    exact ⟨⟨xs, hr.1, hr.2.1, hr.2.2.1, hr.2.2.2.1, hr.2.2.2.2⟩,
      ⟨[], rep_empty h⟩⟩
  · intro fuel h lhs rhs xs ys hf1 hf2 hrl hrr hdisj
    obtain ⟨h', tmp, lhs', rhs', heq, hrep, hl, hr'⟩ :=
      plusOp_rep fuel h lhs rhs xs ys hf1 hf2 hrl hrr hdisj
    subst hl
    subst hr'
    exact ⟨h', tmp, _, _, heq, ⟨_, hrep⟩, ⟨[], rep_empty h'⟩, ⟨[], rep_empty h'⟩⟩
  · exact inv_spec

/-- Witness for C7's amended statement: removing the sole element of the
singleton list [0] preserves the invariant. -/
theorem C7_invariant_preservation_witness :
    listRep hDetached { head := some 0, last := some 0, length := 1 }
      ([] ++ 0 :: []) ∧
    (∃ h' s', remove hDetached { head := some 0, last := some 0, length := 1 }
        (some 0) = some (h', s') ∧ Inv h' s') := by
  have hrep : listRep hDetached { head := some 0, last := some 0, length := 1 }
      ([] ++ 0 :: []) := ⟨rfl, rfl, by decide, rfl, by decide⟩
  exact ⟨hrep,
    C7_invariant_preservation.2.2.2.2.2.2.1 hDetached _ [] [] 0 hrep⟩

end IntrusiveList
